import Mathlib

/-!
Verification of the html-chunking repository core: the heading-driven
section chunker (`src/content_extraction/semantic_chunk_html.py`) and the
content-addressed digest flattener
(`src/content_extraction/summarize_and_split.py`), shallowly embedded in
Lean 4.  Python machine-level details (string `splitlines`, `strip`,
`int()` parsing, dict `str()` serialization, BLAKE2b hashing) are embedded
faithfully from their documented semantics.
-/

namespace HtmlChunking

/-! ## Python string primitives -/

/-- The code points Python `str.splitlines` treats as line boundaries. -/
def isLineBoundary (c : Char) : Bool :=
  c.toNat = 0x0a || c.toNat = 0x0d || c.toNat = 0x0b || c.toNat = 0x0c ||
  c.toNat = 0x1c || c.toNat = 0x1d || c.toNat = 0x1e || c.toNat = 0x85 ||
  c.toNat = 0x2028 || c.toNat = 0x2029

/-- Worker for `splitLinesPy`: `cur` holds the reversed current line.
A `"\r\n"` pair counts as a single boundary; a trailing line is kept
only when non-empty, matching Python `str.splitlines`. -/
def splitLinesGo : List Char → List Char → List String
  | [], cur => if cur.isEmpty then [] else [String.mk cur.reverse]
  | '\r' :: '\n' :: rest, cur => String.mk cur.reverse :: splitLinesGo rest []
  | c :: rest, cur =>
    if isLineBoundary c then String.mk cur.reverse :: splitLinesGo rest []
    else splitLinesGo rest (c :: cur)

/-- Embedding of Python `str.splitlines()`. -/
def splitLinesPy (s : String) : List String := splitLinesGo s.data []

/-- The code points Python `str.strip()` removes (Unicode whitespace). -/
def isPySpace (c : Char) : Bool :=
  (0x09 ≤ c.toNat && c.toNat ≤ 0x0d) || c.toNat = 0x20 ||
  (0x1c ≤ c.toNat && c.toNat ≤ 0x1f) || c.toNat = 0x85 || c.toNat = 0xa0 ||
  c.toNat = 0x1680 || (0x2000 ≤ c.toNat && c.toNat ≤ 0x200a) ||
  c.toNat = 0x2028 || c.toNat = 0x2029 || c.toNat = 0x202f ||
  c.toNat = 0x205f || c.toNat = 0x3000

/-- Embedding of Python `str.strip()` with no arguments. -/
def pyStrip (s : String) : String :=
  String.mk ((s.data.dropWhile isPySpace).reverse.dropWhile isPySpace).reverse

/-- Digits with single underscores in between, as accepted inside a
Python integer literal string (`int("1_0") = 10`). -/
def pyDigitsRun : List Char → Option (List Char)
  | [] => some []
  | [c] => if c.isDigit then some [c] else none
  | c :: '_' :: d :: rest =>
    if c.isDigit && d.isDigit then (pyDigitsRun (d :: rest)).map (fun l => c :: l)
    else none
  | c :: d :: rest =>
    if c.isDigit then (pyDigitsRun (d :: rest)).map (fun l => c :: l)
    else none

/-- Embedding of Python `int(s)` on a string: optional surrounding
whitespace, optional sign, decimal digits (underscore separators
allowed); `none` models `ValueError`. -/
def pyToIntOpt (s : String) : Option Int :=
  let t := (pyStrip s).data
  let signed : Option (Bool × List Char) :=
    match t with
    | '+' :: rest => some (false, rest)
    | '-' :: rest => some (true, rest)
    | rest => some (false, rest)
  match signed with
  | some (neg, ds) =>
    if ds.isEmpty then none
    else
      (pyDigitsRun ds).map (fun l =>
        let n : Nat := l.foldl (fun acc c => 10 * acc + (c.toNat - '0'.toNat)) 0
        if neg then -(n : Int) else (n : Int))
  | none => none

/-! ## The digest flattener (`summarize_and_split.py`) -/

mutual
/-- Hierarchical node produced by the section chunker: the
`{title, text, level, subsections}` dictionaries consumed by the
flattener.  The subsection sequence is a mutually defined list type so
that recursion over trees stays structural (and therefore computes in
the kernel); `ContentNode.subsections` exposes it as an ordinary
list. -/
inductive ContentNode where
  | mk (title : String) (text : String) (level : Option Int)
       (subsections : ContentNodeList)
deriving Repr

inductive ContentNodeList where
  | nil
  | cons (head : ContentNode) (tail : ContentNodeList)
deriving Repr
end

def ContentNodeList.toList : ContentNodeList → List ContentNode
  | .nil => []
  | .cons c rest => c :: rest.toList

def ContentNodeList.ofList : List ContentNode → ContentNodeList
  | [] => .nil
  | c :: rest => .cons c (ContentNodeList.ofList rest)

/-- Builds a node from an ordinary subsection list. -/
def CNode (title : String) (text : String) (level : Option Int)
    (subsections : List ContentNode) : ContentNode :=
  ContentNode.mk title text level (ContentNodeList.ofList subsections)

def ContentNode.title : ContentNode → String
  | .mk t _ _ _ => t

def ContentNode.text : ContentNode → String
  | .mk _ t _ _ => t

def ContentNode.level : ContentNode → Option Int
  | .mk _ _ l _ => l

def ContentNode.subsectionsL : ContentNode → ContentNodeList
  | .mk _ _ _ s => s

def ContentNode.subsections (n : ContentNode) : List ContentNode :=
  n.subsectionsL.toList

/-- Embedding of `shorten_text(text, max_elements, subsections)`.
The `subsections` argument models the Python `list | None` parameter with
`none` collapsed to the empty list (the code only uses it through
`subsections or []` and its truthiness).  The empty-text branch follows
the code's loop, which rebuilds the same listing once per child. -/
def shorten_text (text : String) (max_elements : Int)
    (subsections : List ContentNode) : String :=
  if max_elements = -1 then text
  else if text = "" then
    subsections.foldl
      (fun _ _ =>
        "<p>Covered topics in this subsection:</p><ul>" ++
        String.join (subsections.map (fun child => "<li>" ++ child.title ++ "</li>")) ++
        "</ul>")
      ""
  else
    let lines := splitLinesPy text
    if (lines.length : Int) ≤ max_elements then
      String.join (lines ++ (if subsections.isEmpty then [] else ["..."]))
    else
      String.join ((if 0 ≤ max_elements then lines.take max_elements.toNat
                    else lines.take (lines.length - min lines.length (-max_elements).toNat))
                   ++ ["..."])

/-- Embedding of `generate_section_digest`'s per-child dictionary
`{'title': ..., 'text': ...}`. -/
structure DigestChild where
  title : String
  text : String
deriving DecidableEq, Repr

/-- Embedding of the `section_digest` dictionary built by
`generate_section_digest`. -/
structure SectionDigest where
  title : String
  text : String
  subsections : List DigestChild
deriving DecidableEq, Repr

/-- Embedding of `generate_section_digest(node)`: the node's own title and
text plus, for each immediate child, its title and its text shortened with
cap 1 when the parent has text of its own, else the no-limit sentinel. -/
def generate_section_digest (node : ContentNode) : SectionDigest :=
  { title := node.title
    text := node.text
    subsections := node.subsections.map (fun child =>
      { title := child.title
        text := shorten_text child.text (if node.text = "" then -1 else 1)
                  child.subsections }) }

/-! ## Python `str()` serialization of the digest dictionary -/

/-- Lowercase hexadecimal digit. -/
def hexChar (n : Nat) : Char :=
  if n < 10 then Char.ofNat (48 + n) else Char.ofNat (97 + (n - 10))

/-- Escapes one character as Python `repr` of a string does, given the
chosen surrounding quote (printable non-ASCII is kept as-is). -/
def pyReprEscape (quote : Char) (c : Char) : List Char :=
  if c = '\\' then ['\\', '\\']
  else if c = quote then ['\\', quote]
  else if c.toNat = 10 then ['\\', 'n']
  else if c.toNat = 13 then ['\\', 'r']
  else if c.toNat = 9 then ['\\', 't']
  else if c.toNat < 32 || c.toNat = 127 then
    ['\\', 'x', hexChar (c.toNat / 16), hexChar (c.toNat % 16)]
  else [c]

/-- Embedding of Python `repr` on strings: single quotes unless the string
contains a single quote and no double quote. -/
def pyRepr (s : String) : String :=
  let quote : Char := if s.data.contains '\'' && !(s.data.contains '"') then '"' else '\''
  String.mk ([quote] ++ s.data.flatMap (pyReprEscape quote) ++ [quote])

def strOfDigestChild (c : DigestChild) : String :=
  "\x7b'title': " ++ pyRepr c.title ++ ", 'text': " ++ pyRepr c.text ++ "\x7d"

/-- Embedding of Python `str(section_digest)`: the dict literal with keys
in insertion order `title`, `text`, `subsections`. -/
def strOfSectionDigest (d : SectionDigest) : String :=
  "\x7b'title': " ++ pyRepr d.title ++ ", 'text': " ++ pyRepr d.text ++
  ", 'subsections': [" ++
  String.intercalate ", " (d.subsections.map strOfDigestChild) ++ "]\x7d"

/-- UTF-8 encoding of one character, as a list of byte values. -/
def charUtf8 (c : Char) : List Nat :=
  let n := c.toNat
  if n < 0x80 then [n]
  else if n < 0x800 then [0xc0 + n / 64, 0x80 + n % 64]
  else if n < 0x10000 then [0xe0 + n / 4096, 0x80 + n / 64 % 64, 0x80 + n % 64]
  else [0xf0 + n / 262144, 0x80 + n / 4096 % 64, 0x80 + n / 64 % 64, 0x80 + n % 64]

/-- Embedding of Python `s.encode("utf-8")`. -/
def utf8Bytes (s : String) : List Nat := s.data.flatMap charUtf8

/-! ## BLAKE2b with 16-byte digests (RFC 7693), on `Nat` mod `2 ^ 64` -/

def M64 : Nat := 2 ^ 64

def add64 (a b : Nat) : Nat := (a + b) % M64

def xor64 (a b : Nat) : Nat := Nat.xor a b

def rotr64 (x n : Nat) : Nat := (Nat.lor (x >>> n) (x <<< (64 - n))) % M64

def vget (v : List Nat) (i : Nat) : Nat := v.getD i 0

/-- BLAKE2b initialization vector. -/
def blakeIV : List Nat :=
  [0x6a09e667f3bcc908, 0xbb67ae8584caa73b, 0x3c6ef372fe94f82b, 0xa54ff53a5f1d36f1,
   0x510e527fade682d1, 0x9b05688c2b3e6c1f, 0x1f83d9abfb41bd6b, 0x5be0cd19137e2179]

/-- BLAKE2b message schedule permutations. -/
def blakeSigma : List (List Nat) :=
  [[0, 1, 2, 3, 4, 5, 6, 7, 8, 9, 10, 11, 12, 13, 14, 15],
   [14, 10, 4, 8, 9, 15, 13, 6, 1, 12, 0, 2, 11, 7, 5, 3],
   [11, 8, 12, 0, 5, 2, 15, 13, 10, 14, 3, 6, 7, 1, 9, 4],
   [7, 9, 3, 1, 13, 12, 11, 14, 2, 6, 5, 10, 4, 0, 15, 8],
   [9, 0, 5, 7, 2, 4, 10, 15, 14, 1, 11, 12, 6, 8, 3, 13],
   [2, 12, 6, 10, 0, 11, 8, 3, 4, 13, 7, 5, 15, 14, 1, 9],
   [12, 5, 1, 15, 14, 13, 4, 10, 0, 7, 6, 3, 9, 2, 8, 11],
   [13, 11, 7, 14, 12, 1, 3, 9, 5, 0, 15, 4, 8, 6, 2, 10],
   [6, 15, 14, 9, 11, 3, 0, 8, 12, 2, 13, 7, 1, 4, 10, 5],
   [10, 2, 8, 4, 7, 6, 1, 5, 15, 11, 9, 14, 3, 12, 13, 0]]

/-- The BLAKE2b G mixing function on the 16-word working vector. -/
def blakeG (v : List Nat) (a b c d x y : Nat) : List Nat :=
  let va := add64 (add64 (vget v a) (vget v b)) x
  let vd := rotr64 (xor64 (vget v d) va) 32
  let vc := add64 (vget v c) vd
  let vb := rotr64 (xor64 (vget v b) vc) 24
  let va2 := add64 (add64 va vb) y
  let vd2 := rotr64 (xor64 vd va2) 16
  let vc2 := add64 vc vd2
  let vb2 := rotr64 (xor64 vb vc2) 63
  (((v.set a va2).set b vb2).set c vc2).set d vd2

/-- One BLAKE2b round: four column steps then four diagonal steps. -/
def blakeRound (m : List Nat) (v : List Nat) (s : List Nat) : List Nat :=
  let mg := fun i => vget m (vget s i)
  let v := blakeG v 0 4 8 12 (mg 0) (mg 1)
  let v := blakeG v 1 5 9 13 (mg 2) (mg 3)
  let v := blakeG v 2 6 10 14 (mg 4) (mg 5)
  let v := blakeG v 3 7 11 15 (mg 6) (mg 7)
  let v := blakeG v 0 5 10 15 (mg 8) (mg 9)
  let v := blakeG v 1 6 11 12 (mg 10) (mg 11)
  let v := blakeG v 2 7 8 13 (mg 12) (mg 13)
  let v := blakeG v 3 4 9 14 (mg 14) (mg 15)
  v

/-- The BLAKE2b compression function F. -/
def blakeCompress (h : List Nat) (m : List Nat) (t : Nat) (f : Bool) : List Nat :=
  let v0 := h ++ blakeIV
  let v1 := (v0.set 12 (xor64 (vget v0 12) (t % M64))).set 13
              (xor64 (vget v0 13) (t / M64 % M64))
  let v2 := if f then v1.set 14 (xor64 (vget v1 14) (M64 - 1)) else v1
  let vf := (List.range 12).foldl (fun v r => blakeRound m v (blakeSigma.getD (r % 10) [])) v2
  (List.range 8).map (fun i => xor64 (vget h i) (xor64 (vget vf i) (vget vf (i + 8))))

/-- Splits a byte list into 128-byte blocks, with structural recursion
on a step bound that the wrapper instantiates amply. -/
def chunksGo : Nat → List Nat → List (List Nat)
  | 0, l => [l]
  | fuel + 1, l =>
    if l.length ≤ 128 then [l]
    else l.take 128 :: chunksGo fuel (l.drop 128)

/-- Splits a byte list into 128-byte blocks; an input of at most one
block (including the empty input) is a single block.  Each recursion
step removes 128 bytes, so `l.length` steps always suffice. -/
def chunks128 (l : List Nat) : List (List Nat) := chunksGo l.length l

/-- Little-endian 64-bit word from up to eight bytes. -/
def leWord (bytes : List Nat) : Nat := bytes.foldr (fun b acc => acc * 256 + b) 0

/-- The sixteen message words of one 128-byte block. -/
def blockWords (block : List Nat) : List Nat :=
  (List.range 16).map (fun i => leWord ((block.drop (8 * i)).take 8))

/-- The eight little-endian bytes of one 64-bit word. -/
def le8 (w : Nat) : List Nat := (List.range 8).map (fun i => w / 256 ^ i % 256)

/-- BLAKE2b with `digest_size=16`, no key: parameter word
`0x01010010 = 0x01010000 xor 16`, sequential mode.  Returns the sixteen
digest bytes. -/
def blake2b16 (input : List Nat) : List Nat :=
  let h0 := blakeIV.set 0 (xor64 (vget blakeIV 0) 0x01010010)
  let blocks := chunks128 input
  let n := blocks.length
  let hfin := blocks.enum.foldl
    (fun h p =>
      if p.1 + 1 = n then
        blakeCompress h (blockWords (p.2 ++ List.replicate (128 - p.2.length) 0))
          input.length true
      else blakeCompress h (blockWords p.2) (128 * (p.1 + 1)) false)
    h0
  (hfin.flatMap le8).take 16

/-- Two lowercase hex characters of one byte. -/
def byteHex (b : Nat) : String := String.mk [hexChar (b / 16 % 16), hexChar (b % 16)]

/-- Lowercase hex string of a byte list (Python `hexdigest()`). -/
def bytesHex (l : List Nat) : String := String.join (l.map byteHex)

/-- Embedding of `compute_digest_hash(section_digest)`: BLAKE2b
(16-byte digest) of the UTF-8 encoding of `str(section_digest)`,
as a lowercase hex string. -/
def compute_digest_hash (d : SectionDigest) : String :=
  bytesHex (blake2b16 (utf8Bytes (strOfSectionDigest d)))

/-! ## The flattening pass `process_node` -/

/-- Embedding of the flat dictionaries emitted by `process_node`. -/
structure DigestNode where
  digest_hash : String
  parent_digest_hash : Option String
  title : String
  text : String
  section_digest : SectionDigest
deriving DecidableEq, Repr

mutual
/-- Embedding of `process_node(node, parent_digest_hash)`: emit this
node's digest entry, then recurse into subsections in document order with
this node's hash as parent. -/
def process_node : ContentNode → Option String → List DigestNode
  | .mk title text level subs, parent =>
    let node := ContentNode.mk title text level subs
    let sd := generate_section_digest node
    let h := compute_digest_hash sd
    { digest_hash := h, parent_digest_hash := parent,
      title := title, text := text, section_digest := sd } ::
    process_nodeList subs (some h)

/-- The `for child in node.get("subsections", [])` loop of
`process_node`. -/
def process_nodeList : ContentNodeList → Option String → List DigestNode
  | .nil, _ => []
  | .cons c rest, p => process_node c p ++ process_nodeList rest p
end

/-! ## The markup tree (`bs4` document model) -/

mutual
/-- A parsed markup tree: an element with tag name, attributes (in source
order; `bs4` attribute dicts are modelled as ordered association lists)
and children, or a text node (`NavigableString`).  Children form a
mutually defined list type so that recursion over trees stays structural
(and computes in the kernel); `Html.children` exposes them as an
ordinary list. -/
inductive Html where
  | tag (name : String) (attrs : List (String × String)) (children : HtmlList)
  | text (s : String)
deriving Repr

inductive HtmlList where
  | nil
  | cons (head : Html) (tail : HtmlList)
deriving Repr
end

def HtmlList.toList : HtmlList → List Html
  | .nil => []
  | .cons c rest => c :: rest.toList

def HtmlList.ofList : List Html → HtmlList
  | [] => .nil
  | c :: rest => .cons c (HtmlList.ofList rest)

def HtmlList.isEmptyL : HtmlList → Bool
  | .nil => true
  | .cons _ _ => false

/-- Builds an element from an ordinary child list. -/
def Html.el (name : String) (attrs : List (String × String))
    (children : List Html) : Html :=
  Html.tag name attrs (HtmlList.ofList children)

mutual
/-- Structural equality, modelling `bs4` `Tag.__eq__` (same name,
attributes and contents) and string equality on text nodes. -/
def Html.beq : Html → Html → Bool
  | .text s, .text t => s == t
  | .tag n a cs, .tag m b ds => n == m && a == b && HtmlList.beqL cs ds
  | .text _, .tag _ _ _ => false
  | .tag _ _ _, .text _ => false

def HtmlList.beqL : HtmlList → HtmlList → Bool
  | .nil, .nil => true
  | .cons c cs, .cons d ds => Html.beq c d && HtmlList.beqL cs ds
  | .nil, .cons _ _ => false
  | .cons _ _, .nil => false
end

def Html.childrenL : Html → HtmlList
  | .tag _ _ cs => cs
  | .text _ => .nil

def Html.children (h : Html) : List Html := h.childrenL.toList

def Html.isTag : Html → Bool
  | .tag _ _ _ => true
  | .text _ => false

def Html.nameOf : Html → Option String
  | .tag n _ _ => some n
  | .text _ => none

/-- `element.get(key)`: first attribute with the given name. -/
def Html.getAttr : Html → String → Option String
  | .tag _ attrs _, k => (attrs.find? (fun p => p.1 == k)).map (fun p => p.2)
  | .text _, _ => none

/-- `element.get_text()` over a child list: concatenation of all
descendant strings in document order. -/
def HtmlList.getTextL : HtmlList → String
  | .nil => ""
  | .cons (.text s) rest => s ++ rest.getTextL
  | .cons (.tag _ _ cs) rest => cs.getTextL ++ rest.getTextL

/-- `element.get_text()`. -/
def Html.getText : Html → String
  | .text s => s
  | .tag _ _ cs => cs.getTextL

/-- Tags serialized in self-closed form by `bs4` when empty. -/
def voidTags : List String :=
  ["area", "base", "br", "col", "embed", "hr", "img", "input", "keygen",
   "link", "menuitem", "meta", "param", "source", "track", "wbr"]

/-- Minimal entity substitution applied by `bs4` to text content. -/
def escTextHtml (s : String) : String :=
  String.mk (s.data.flatMap (fun c =>
    if c = '&' then "&amp;".data
    else if c = '<' then "&lt;".data
    else if c = '>' then "&gt;".data
    else [c]))

/-- Entity substitution applied by `bs4` inside attribute values. -/
def escAttrHtml (s : String) : String :=
  String.mk (s.data.flatMap (fun c =>
    if c = '&' then "&amp;".data
    else if c = '<' then "&lt;".data
    else if c = '>' then "&gt;".data
    else if c = '"' then "&quot;".data
    else [c]))

/-- The serialized attribute string of an element. -/
def attrsRendered (attrs : List (String × String)) : String :=
  String.join (attrs.map (fun p => " " ++ p.1 ++ "=\"" ++ escAttrHtml p.2 ++ "\""))

/-- `str(...)` of a sequence of siblings: the `bs4` serialization with
minimal entity substitution, empty void elements self-closed. -/
def HtmlList.renderL : HtmlList → String
  | .nil => ""
  | .cons (.text s) rest => escTextHtml s ++ rest.renderL
  | .cons (.tag n attrs cs) rest =>
    (if voidTags.contains n && cs.isEmptyL then
      "<" ++ n ++ attrsRendered attrs ++ "/>"
     else
      "<" ++ n ++ attrsRendered attrs ++ ">" ++ cs.renderL ++ "</" ++ n ++ ">") ++
    rest.renderL

/-- `str(element)`. -/
def Html.render (h : Html) : String := HtmlList.renderL (.cons h .nil)

/-- Identity of a node inside a fixed tree (`id(element)` in the code):
the list of child indices from the root, counting text nodes. -/
abbrev Path := List Nat

def Html.nodeAt : Html → Path → Option Html
  | h, [] => some h
  | h, i :: p =>
    match h.children[i]? with
    | some c => Html.nodeAt c p
    | none => none

/-- Path resolution against a sibling list (the children of some
element). -/
def listNodeAt (cs : List Html) : Path → Option Html
  | [] => none
  | i :: rest =>
    match cs[i]? with
    | some c => Html.nodeAt c rest
    | none => none

/-- All tag descendants of a sibling sequence in document order
(`element.find_all()`), as subtrees. -/
def HtmlList.descTagsL : HtmlList → List Html
  | .nil => []
  | .cons (.text _) rest => rest.descTagsL
  | .cons (.tag n a cs) rest =>
    Html.tag n a cs :: (cs.descTagsL ++ rest.descTagsL)

def Html.descTags (h : Html) : List Html := h.childrenL.descTagsL

/-- Paths of all tag descendants in document order, relative to the
element whose child sequence is given (`i` is the index of the first
listed child). -/
def HtmlList.pathsL : HtmlList → Nat → List Path
  | .nil, _ => []
  | .cons (.text _) rest, i => rest.pathsL (i + 1)
  | .cons (.tag _ _ cs) rest, i =>
    ([i] :: (cs.pathsL 0).map (fun p => i :: p)) ++ rest.pathsL (i + 1)

/-- Paths of all tag descendants of `h` in document order
(`element.find_all()` with identity). -/
def Html.findAllPaths (h : Html) : List Path := h.childrenL.pathsL 0

/-! ## The section parser (`semantic_chunk_html.py`) -/

/-- Tag-implied heading rank (`heading_aria_levels`). -/
def headingTagLevel : String → Option Int
  | "h1" => some 1
  | "h2" => some 2
  | "h3" => some 3
  | "h4" => some 4
  | "h5" => some 5
  | "h6" => some 6
  | _ => none

/-- Embedding of `SectionParser.get_aria_level`: the tag-implied rank,
overridden by a parseable non-empty `aria-level` attribute; a `div` with
`role="heading"` is a heading only with a parseable `aria-level`. -/
def get_aria_level (e : Html) : Option Int :=
  match e.nameOf with
  | none => none
  | some n =>
    match headingTagLevel n with
    | some l =>
      match e.getAttr "aria-level" with
      | some s =>
        if s ≠ "" then
          match pyToIntOpt s with
          | some v => some v
          | none => some l
        else some l
      | none => some l
    | none =>
      if n = "div" && e.getAttr "role" == some "heading" then
        match e.getAttr "aria-level" with
        | some s => if s ≠ "" then pyToIntOpt s else none
        | none => none
      else none

/-- Embedding of `SectionParser.is_heading`. -/
def is_heading (e : Html) : Bool := (get_aria_level e).isSome

/-- Embedding of `SectionParser.should_include_element`. -/
def should_include_element (e : Html) : Bool :=
  if is_heading e then false
  else
    let n := (e.nameOf).getD ""
    if n = "script" || n = "style" || n = "noscript" then false
    else if n = "meta" || n = "link" || n = "title" || n = "base" then false
    else if pyStrip e.getText = "" then false
    else if (e.descTags).any is_heading then false
    else true

/-- Embedding of `SectionParser.extract_html_content`: serialized
included tag children and stripped non-empty text children, joined by
newlines and stripped. -/
def extract_html_content (e : Html) : String :=
  pyStrip (String.intercalate "\n" (e.children.filterMap (fun child =>
    match child with
    | .tag _ _ _ => if should_include_element child then some child.render else none
    | .text s => if pyStrip s ≠ "" then some (pyStrip s) else none)))

/-- `get_aria_level(e) or float('inf')`: a rank of `0` is falsy in Python
and collapses to infinity, modelled as `none`. -/
def effLevel (e : Html) : Option Int :=
  match get_aria_level e with
  | some l => if l = 0 then none else some l
  | none => none

/-- Comparison on ranks extended with infinity (`none`). -/
def extLe : Option Int → Option Int → Bool
  | some x, some y => x ≤ y
  | some _, none => true
  | none, some _ => false
  | none, none => true

/-- Embedding of `SectionParser.get_section_content` on a sibling list,
returning the indices of the collected siblings.  Collection starts after
a sibling structurally equal to `startEl` (such later duplicates are
skipped, not collected) and stops at a sibling heading of
effective rank at most `startEl`'s. -/
def sectionContentIdxs (siblings : List Html) (startEl : Html) : List Nat :=
  go siblings 0 false
where
  go : List Html → Nat → Bool → List Nat
    | [], _, _ => []
    | sib :: rest, i, collecting =>
      if Html.beq sib startEl then go rest (i + 1) true
      else if collecting then
        if sib.isTag && is_heading sib && extLe (effLevel sib) (effLevel startEl) then []
        else i :: go rest (i + 1) collecting
      else go rest (i + 1) collecting

/-- Embedding of `SectionParser.is_base_case` for a root element without
a parent: a heading root is a base case outright, a container is a base
case exactly when it has exactly one heading among its tag
descendants. -/
def is_base_case (e : Html) : Bool :=
  if is_heading e then true
  else (e.descTags).countP (fun c => is_heading c) = 1

/-- One step of Python's stable minimum-by-rank selection: keep the
earlier heading unless the new one has strictly smaller rank. -/
def pickMin (best : Option (Html × Int)) (p : Html × Int) : Option (Html × Int) :=
  match best with
  | none => some p
  | some q => if p.2 < q.2 then some p else some q

/-- Embedding of `SectionParser.find_highest_aria_element`: the first
heading of minimal rank in document order (Python's stable sort by
rank). -/
def find_highest_aria_element (root : Html) : Option Html :=
  ((root.descTags).filterMap
      (fun e => (get_aria_level e).map (fun l => (e, l)))).foldl pickMin none
    |>.map (fun p => p.1)

/-- The node at a path, with a dummy default (paths produced by
`findAllPaths` always resolve). -/
def Html.at (root : Html) (p : Path) : Html := (root.nodeAt p).getD (Html.text "")

/-- One examined element of the direct-subsection scan in
`parse_to_dict`: its path, the elements already examined between the
anchor and it, the processed set at the moment it is examined, and
whether it was accepted into `next_level_headings`. -/
structure SelEntry where
  path : Path
  seenBefore : List Path
  processedBefore : List Path
  selected : Bool
deriving DecidableEq, Repr

/-- State of the direct-subsection scan. -/
structure SelState where
  stopped : Bool
  seen : List Path
  processed : List Path
  selected : List Path
  log : List SelEntry
deriving DecidableEq, Repr

def selectionInit : SelState := ⟨false, [], [], [], []⟩

/-- Paths marked processed when a boundary heading is accepted: each tag
element of its section content together with all of that element's tag
descendants. -/
def contentMarks (root : Html) (p : Path) : List Path :=
  let parentP := p.dropLast
  let sibs := (root.at parentP).children
  (sectionContentIdxs sibs (root.at p)).flatMap (fun i =>
    match sibs[i]? with
    | some (Html.tag n a cs) =>
      (parentP ++ [i]) ::
        ((Html.tag n a cs).findAllPaths).map (fun q => parentP ++ [i] ++ q)
    | _ => [])

/-- Whether the scan's intermediate-heading test rejects the candidate at
`p` with rank `l`: some already-examined element is a still-unprocessed
heading with truthy rank between the anchor's rank and `l`, both ends
included (`highest_level <= intermediate_level <= elem_level` in the
code, under Python truthiness of `intermediate_level`). -/
def hasBlockingIntermediate (root : Html) (anchorLevel : Int) (st : SelState)
    (l : Int) : Bool :=
  st.seen.any (fun q =>
    !(st.processed.contains q) && is_heading (root.at q) &&
    (match get_aria_level (root.at q) with
     | some il => il ≠ 0 && anchorLevel ≤ il && il ≤ l
     | none => false))

/-- One step of the direct-subsection scan of `parse_to_dict` (the
`while i < len(all_elements)` loop): skip processed elements, accept a
still-unprocessed heading of truthy rank `>=` the anchor's rank when no
blocking intermediate exists (marking its section content processed), and
stop at a heading of truthy rank below the anchor's. -/
def selStep (root : Html) (anchorLevel : Int) (st : SelState) (p : Path) : SelState :=
  if st.stopped then st
  else if st.processed.contains p then
    { st with seen := st.seen ++ [p],
              log := st.log ++ [⟨p, st.seen, st.processed, false⟩] }
  else
    match get_aria_level (root.at p) with
    | some l =>
      if l ≠ 0 && anchorLevel ≤ l then
        if hasBlockingIntermediate root anchorLevel st l then
          { st with seen := st.seen ++ [p],
                    log := st.log ++ [⟨p, st.seen, st.processed, false⟩] }
        else
          { stopped := false,
            seen := st.seen ++ [p],
            processed := (st.processed ++ [p]) ++ contentMarks root p,
            selected := st.selected ++ [p],
            log := st.log ++ [⟨p, st.seen, st.processed, true⟩] }
      else if l ≠ 0 && l ≤ anchorLevel then
        { st with stopped := true,
                  log := st.log ++ [⟨p, st.seen, st.processed, false⟩] }
      else
        { st with seen := st.seen ++ [p],
                  log := st.log ++ [⟨p, st.seen, st.processed, false⟩] }
    | none =>
      { st with seen := st.seen ++ [p],
                log := st.log ++ [⟨p, st.seen, st.processed, false⟩] }

/-- The anchor of a composite decomposition: the subtree of the first
minimal-rank heading, its rank, and its position in `findAllPaths`
(`all_elements.index(highest_element)`, first structural match). -/
def anchorData (root : Html) : Option (Html × Int × Nat) :=
  match find_highest_aria_element root with
  | none => none
  | some hi =>
    match get_aria_level hi with
    | none => none
    | some hl =>
      some (hi, hl, root.findAllPaths.findIdx (fun p => Html.beq (root.at p) hi))

/-- The elements examined by the direct-subsection scan: all tag paths
after the anchor's position, in document order. -/
def afterAnchorPaths (root : Html) : List Path :=
  match anchorData root with
  | none => []
  | some (_, _, pos) => root.findAllPaths.drop (pos + 1)

/-- The final state of the direct-subsection scan. -/
def selectionFinal (root : Html) : SelState :=
  match anchorData root with
  | none => selectionInit
  | some (_, hl, _) => (afterAnchorPaths root).foldl (selStep root hl) selectionInit

/-- The accepted direct-subsection boundary headings
(`next_level_headings`), as paths in document order. -/
def next_level_headings (root : Html) : List Path := (selectionFinal root).selected

/-- The decision log of the direct-subsection scan. -/
def selectionLog (root : Html) : List SelEntry := (selectionFinal root).log

/-- The pieces of the composite node's own `text`: serialized included
children before the first strictly-deeper truthy-rank heading child,
skipping children structurally equal to the anchor. -/
def compositeTextParts (root : Html) (highest : Html) (hl : Int) : List String :=
  go root.children
where
  go : List Html → List String
    | [] => []
    | child :: rest =>
      match child with
      | .tag n a cs =>
        if Html.beq (Html.tag n a cs) highest then go rest
        else
          match get_aria_level (Html.tag n a cs) with
          | some l =>
            if l ≠ 0 && hl < l then []
            else if should_include_element (Html.tag n a cs) then
              (Html.tag n a cs).render :: go rest
            else go rest
          | none =>
            if should_include_element (Html.tag n a cs) then
              (Html.tag n a cs).render :: go rest
            else go rest
      | .text s => if pyStrip s ≠ "" then pyStrip s :: go rest else go rest

/-- `copy.deepcopy(heading).find()`: the first tag descendant of the
heading, or `none` for a heading with only text inside. -/
def firstTagDescendant (e : Html) : Option Html := (e.descTags).head?

/-- Models `BeautifulSoup(str(element), 'lxml')` followed by `.find()`
for a body-level flow element: `lxml` wraps the re-parsed fragment in
`<html><body>...</body></html>` and `.find()` returns that `html`
element; serialization round-trips the element itself. -/
def lxmlFragmentWrap (e : Html) : Html :=
  Html.el "html" [] [Html.el "body" [] [e]]

/-- The clones appended one by one into the fragment `temp_div` for the
accepted boundary heading at path `p`: the heading's first tag descendant
(if any) followed by the re-parsed clones of its section-content tag
siblings (text siblings are dropped by the `hasattr(element, 'name')`
guard). -/
def fragmentPieces (root : Html) (p : Path) : List Html :=
  let e := root.at p
  let parentP := p.dropLast
  let sibs := (root.at parentP).children
  (match firstTagDescendant e with
   | some t => [t]
   | none => []) ++
  (sectionContentIdxs sibs e).filterMap (fun i =>
    match sibs[i]? with
    | some (Html.tag n a cs) => some (lxmlFragmentWrap (Html.tag n a cs))
    | _ => none)

/-- The isolated fragment (`temp_div`) built for one accepted boundary
heading at path `p`. -/
def subsectionFragment (root : Html) (p : Path) : Html :=
  Html.el "div" [] (fragmentPieces root p)

/-- Embedding of `SectionParser.parse_to_dict`, with explicit recursion
fuel (the Python recursion depth is data-dependent; every claim is
evaluated with ample fuel). -/
def parse_to_dict : Nat → Html → ContentNode
  | 0, _ => CNode "" "" none []
  | fuel + 1, root =>
    if is_base_case root then
      match (root.descTags).find? is_heading with
      | some heading =>
        CNode (pyStrip heading.getText) (extract_html_content root)
          (get_aria_level heading) []
      | none => CNode "" (extract_html_content root) none []
    else
      match anchorData root with
      | none => CNode "" (extract_html_content root) none []
      | some (highest, hl, _) =>
        CNode (pyStrip highest.getText)
          (pyStrip (String.intercalate "\n" (compositeTextParts root highest hl)))
          (some hl)
          ((next_level_headings root).map (fun p =>
            parse_to_dict fuel (subsectionFragment root p)))

/-- `soup.find(name)`: first tag descendant with the given name. -/
def findFirstTagNamed (root : Html) (n : String) : Option Html :=
  (root.descTags).find? (fun e => e.nameOf == some n)

/-- Embedding of `find_root_element`: first non-empty `main`/`article`,
else non-empty `body`, else non-empty `section`, else the first `div`
with more than 100 characters of stripped text, else the soup itself. -/
def find_root_element (soup : Html) : Html :=
  let try_ := fun (n : String) =>
    match findFirstTagNamed soup n with
    | some e => if pyStrip e.getText ≠ "" then some e else none
    | none => none
  match try_ "main" with
  | some e => e
  | none =>
    match try_ "article" with
    | some e => e
    | none =>
      match try_ "body" with
      | some e => e
      | none =>
        match try_ "section" with
        | some e => e
        | none =>
          match (soup.descTags).find?
              (fun e => e.nameOf == some "div" && 100 < (pyStrip e.getText).length) with
          | some e => e
          | none => soup

/-- Embedding of `SectionParser.parse_html` after `BeautifulSoup`
parsing: root selection followed by `parse_to_dict`. -/
def parse_html (fuel : Nat) (soup : Html) : ContentNode :=
  parse_to_dict fuel (find_root_element soup)

/-! ## Specification-side definitions for the flattener claims -/

/-- The content-derived identifier of a node: the hash of its section
digest. -/
def digestOf (n : ContentNode) : String :=
  compute_digest_hash (generate_section_digest n)

/-- The flat entry the spec describes for one hierarchical node and its
parent hash. -/
def mkDigestNode (n : ContentNode) (parent : Option String) : DigestNode :=
  { digest_hash := digestOf n, parent_digest_hash := parent,
    title := n.title, text := n.text,
    section_digest := generate_section_digest n }

mutual
/-- Spec-side pre-order traversal with parent linkage: every node paired
with its immediate parent's digest hash (`none` at the root), the node
before its subsections, subsections in document order. -/
def preorderFlatten : ContentNode → Option String → List (ContentNode × Option String)
  | ContentNode.mk title text level subs, parent =>
    let node := ContentNode.mk title text level subs
    (node, parent) :: preorderFlattenL subs (some (digestOf node))

def preorderFlattenL : ContentNodeList → Option String → List (ContentNode × Option String)
  | .nil, _ => []
  | .cons c rest, p => preorderFlatten c p ++ preorderFlattenL rest p
end

mutual
/-- Number of nodes of a hierarchical tree. -/
def countNodes : ContentNode → Nat
  | ContentNode.mk _ _ _ subs => 1 + countNodesL subs

def countNodesL : ContentNodeList → Nat
  | .nil => 0
  | .cons c rest => countNodes c + countNodesL rest
end

/-- The flat entries whose `parent_digest_hash` is the given hash, in
emission order: the children of that node under parent-hash linkage. -/
def childEntries (all : List DigestNode) (h : String) : List DigestNode :=
  all.filter (fun d => d.parent_digest_hash = some h)

/-- Reconstruction of one node from the flat sequence via parent-hash
linkage: title and text verbatim, children in emission order, no level
information (the flat form carries none; hashing does not read it).
`fuel` bounds the depth. -/
def rebuildNode (fuel : Nat) (all : List DigestNode) (d : DigestNode) : ContentNode :=
  match fuel with
  | 0 => CNode d.title d.text none []
  | fuel + 1 =>
    CNode d.title d.text none
      ((childEntries all d.digest_hash).map (rebuildNode fuel all))

/-- Reconstruction of the whole tree from a flat sequence: the first
emitted entry is the root. -/
def reconstructRootD (all : List DigestNode) : ContentNode :=
  match all with
  | [] => CNode "" "" none []
  | d :: _ => rebuildNode all.length all d

mutual
/-- The same tree with every `level` erased, which is what parent-hash
reconstruction can recover. -/
def eraseLevels : ContentNode → ContentNode
  | ContentNode.mk title text _ subs =>
    ContentNode.mk title text none (eraseLevelsL subs)

def eraseLevelsL : ContentNodeList → ContentNodeList
  | .nil => .nil
  | .cons c rest => .cons (eraseLevels c) (eraseLevelsL rest)
end

/-- The lowercase hexadecimal alphabet. -/
def hexCharsLower : List Char := "0123456789abcdef".data

/-- Claim C8 as stated: reconstructing from the flat sequence and
re-flattening reproduces the identical `digest_hash` value for every
node. -/
def roundTripIdempotent (t : ContentNode) : Prop :=
  (process_node (reconstructRootD (process_node t none)) none).map
      (fun d => d.digest_hash) =
    (process_node t none).map (fun d => d.digest_hash)

/-! ## Specification-side definitions for the boundary-selection claim -/

/-- The exclusion test exactly as claim C2 words it: some element already
examined between the anchor and the candidate is a heading, still
unprocessed at the moment the candidate is examined, with rank strictly
between the anchor's rank and the candidate's rank. -/
def claimBlockingIntermediate (root : Html) (anchorLevel : Int)
    (entry : SelEntry) (l : Int) : Bool :=
  entry.seenBefore.any (fun q =>
    !(entry.processedBefore.contains q) &&
    (match get_aria_level (root.at q) with
     | some il => anchorLevel < il && il < l
     | none => false))

/-- Claim C2's prediction for one examined element: every later heading
of rank at least the anchor's is a candidate, accepted exactly when no
still-unprocessed strictly-between intermediate exists; the claim
constrains nothing else. -/
def c2EntryClaimOk (root : Html) (anchorLevel : Int) (entry : SelEntry) : Bool :=
  match get_aria_level (root.at entry.path) with
  | some l =>
    if anchorLevel ≤ l then
      entry.selected == !(claimBlockingIntermediate root anchorLevel entry l)
    else true
  | none => true

/-- Claim C2 as stated, over the scan of one composite decomposition. -/
def C2Claim (root : Html) : Prop :=
  ∀ hi hl pos, anchorData root = some (hi, hl, pos) →
    ∀ entry ∈ selectionLog root, c2EntryClaimOk root hl entry = true

/-- The code's actual acceptance rule for one examined element: the
element must still be unprocessed, be a heading of truthy (nonzero) rank
at least the anchor's rank, and no already-examined still-unprocessed
heading may have truthy rank between the anchor's rank and the
candidate's rank, both bounds included. -/
def codeSelectRule (root : Html) (anchorLevel : Int) (entry : SelEntry) : Bool :=
  !(entry.processedBefore.contains entry.path) &&
  (match get_aria_level (root.at entry.path) with
   | some l =>
     l ≠ 0 && anchorLevel ≤ l &&
     !(entry.seenBefore.any (fun q =>
       !(entry.processedBefore.contains q) && is_heading (root.at q) &&
       (match get_aria_level (root.at q) with
        | some il => il ≠ 0 && anchorLevel ≤ il && il ≤ l
        | none => false)))
   | none => false)

/-! ## State-passing embedding of the two passes (frame claim C9)

The live `bs4` trees of one run form an explicit store; mutation
(appending a clone into a `temp_div`) is a store update.  The chunker
only ever creates fresh roots and appends into them, which the frame
theorem below makes precise. -/

/-- The roots of all live soups of one document run; in our uses the
input document's root sits at index 0 and every fragment soup created by
the chunker is pushed behind it. -/
abbrev Store := List Html

def Html.appendChild (h : Html) (c : Html) : Html :=
  match h with
  | .tag n a cs => .tag n a (HtmlList.ofList (cs.toList ++ [c]))
  | .text s => .text s

def storeRead (σ : Store) (i : Nat) : Html := σ.getD i (Html.text "")

/-- `BeautifulSoup('<div></div>', 'lxml')`: a fresh root is allocated at
the end of the store. -/
def pushRoot (σ : Store) (h : Html) : Nat × Store := (σ.length, σ ++ [h])

/-- `temp_div.append(...)`: in-place mutation of one live root. -/
def appendAt (σ : Store) (i : Nat) (c : Html) : Store :=
  σ.set i ((storeRead σ i).appendChild c)

/-- State-passing embedding of `SectionParser.parse_to_dict` on the tree
at store index `idx`: identical to `parse_to_dict` except that each
subsection fragment is built by allocating a fresh `temp_div` root and
appending the clones into it one by one, as the code does. -/
def parse_to_dictS : Nat → Nat → Store → ContentNode × Store
  | 0, _, σ => (CNode "" "" none [], σ)
  | fuel + 1, idx, σ =>
    let root := storeRead σ idx
    if is_base_case root then
      match (root.descTags).find? is_heading with
      | some heading =>
        (CNode (pyStrip heading.getText) (extract_html_content root)
          (get_aria_level heading) [], σ)
      | none => (CNode "" (extract_html_content root) none [], σ)
    else
      match anchorData root with
      | none => (CNode "" (extract_html_content root) none [], σ)
      | some (highest, hl, _) =>
        let branch := (next_level_headings root).foldl
          (fun acc p =>
            let pr := pushRoot acc.2 (Html.el "div" [] [])
            let σ2 := (fragmentPieces root p).foldl (fun σ c => appendAt σ pr.1 c) pr.2
            let rcall := parse_to_dictS fuel pr.1 σ2
            (acc.1 ++ [rcall.1], rcall.2))
          (([] : List ContentNode), σ)
        (CNode (pyStrip highest.getText)
          (pyStrip (String.intercalate "\n" (compositeTextParts root highest hl)))
          (some hl) branch.1, branch.2)

/-- One iteration of the subsection loop of `parse_to_dictS`: allocate a
fresh `temp_div` root, append the fragment clones into it one by one,
recurse on the fresh root. -/
def parseStep (fuel : Nat) (root : Html) :
    List ContentNode × Store → Path → List ContentNode × Store :=
  fun acc p =>
    let pr := pushRoot acc.2 (Html.el "div" [] [])
    let σ2 := (fragmentPieces root p).foldl (fun σ c => appendAt σ pr.1 c) pr.2
    let rcall := parse_to_dictS fuel pr.1 σ2
    (acc.1 ++ [rcall.1], rcall.2)

/-- State-passing embedding of `process_node` on the tree at store index
`i`: the body of `process_node` contains no store-mutating operation (it
only reads fields and builds fresh dictionaries), so its embedding
returns the store as received. -/
def process_nodeS (σ : List ContentNode) (i : Nat) (parent : Option String) :
    List DigestNode × List ContentNode :=
  (process_node (σ.getD i (CNode "" "" none [])) parent, σ)

/-! ## Concrete inputs used by the claims -/

/-- The `lxml` parse of
`<h1>T</h1><p>A</p><h2>S1</h2><p>B</p><h2>S2</h2><p>C</p>`. -/
def c1Doc : Html :=
  Html.el "[document]" [] [Html.el "html" [] [Html.el "body" []
    [Html.el "h1" [] [Html.text "T"], Html.el "p" [] [Html.text "A"],
     Html.el "h2" [] [Html.text "S1"], Html.el "p" [] [Html.text "B"],
     Html.el "h2" [] [Html.text "S2"], Html.el "p" [] [Html.text "C"]]]]

/-- The result claim C1 (and the repository's own
`test_parse_to_dict`) expects on `c1Doc`. -/
def c1Claimed : ContentNode :=
  CNode "T" "<p>A</p>" (some 1)
    [CNode "S1" "<p>B</p>" (some 2) [],
     CNode "S2" "<p>C</p>" (some 2) []]

/-- What the code actually returns on `c1Doc`: the subsection headings
are dropped (`deepcopy(heading).find()` finds no tag inside a text-only
heading) and the subsection content keeps its `lxml` `html/body`
wrapper (`BeautifulSoup(str(element), 'lxml').find()` is the `html`
element). -/
def c1Actual : ContentNode :=
  CNode "T" "<p>A</p>" (some 1)
    [CNode "" "<html><body><p>B</p></body></html>" none [],
     CNode "" "<html><body><p>C</p></body></html>" none []]

/-- Claim C2's counterexample subtree: a body with sibling headings of
ranks 1, 2 and 3. -/
def c2Body : Html :=
  Html.el "body" []
    [Html.el "h1" [] [Html.text "T"], Html.el "h2" [] [Html.text "A"],
     Html.el "h3" [] [Html.text "B"]]

/-- Claim C8's counterexample tree: two structurally identical sibling
subtrees, which by design share one digest hash. -/
def c8Tree : ContentNode :=
  CNode "R" "x" (some 1)
    [CNode "A" "t" (some 2) [CNode "B" "u" (some 3) []],
     CNode "A" "t" (some 2) [CNode "B" "u" (some 3) []]]

/-- A small tree with pairwise distinct digest hashes, for the amended
round-trip claim. -/
def c8Small : ContentNode :=
  CNode "R" "x" (some 1) [CNode "A" "t" (some 2) []]

/-! ## Helper lemmas -/

theorem ContentNodeList.sizeOf_lt_of_mem :
    ∀ (l : ContentNodeList), ∀ c ∈ l.toList, sizeOf c < sizeOf l
  | .nil, c, hc => absurd hc (by simp [ContentNodeList.toList])
  | .cons x xs, c, hc => by
    rcases List.mem_cons.mp (by simpa [ContentNodeList.toList] using hc) with rfl | h
    · simp only [ContentNodeList.cons.sizeOf_spec]
      omega
    · have := ContentNodeList.sizeOf_lt_of_mem xs c h
      simp only [ContentNodeList.cons.sizeOf_spec]
      omega

/-- Induction over a `ContentNode` through its subsection list. -/
theorem ContentNode.memInduction {P : ContentNode → Prop}
    (step : ∀ title text level subs,
      (∀ c ∈ ContentNodeList.toList subs, P c) →
        P (ContentNode.mk title text level subs)) :
    ∀ t, P t := fun t =>
  match t with
  | ContentNode.mk a b l s =>
    step a b l s (fun c _hc => ContentNode.memInduction step c)
termination_by t => sizeOf t
decreasing_by
  have := ContentNodeList.sizeOf_lt_of_mem s c _hc
  simp only [ContentNode.mk.sizeOf_spec]
  omega

theorem foldl_const_of_ne_nil {α β : Type} (k : β) :
    ∀ (l : List α) (init : β), l ≠ [] → l.foldl (fun _ _ => k) init = k := by
  intro l
  induction l with
  | nil => intro init h; exact absurd rfl h
  | cons x xs ih =>
    intro init _
    simp only [List.foldl_cons]
    cases xs with
    | nil => rfl
    | cons y ys => exact ih _ (by simp)

theorem splitLinesGo_no_boundary (cs cur : List Char) :
    (∀ c ∈ cur, isLineBoundary c = false) →
      ∀ p ∈ splitLinesGo cs cur, ∀ c ∈ p.data, isLineBoundary c = false := by
  induction cs, cur using splitLinesGo.induct with
  | case1 cur hemp =>
    intro _hcur p hp c hc
    rw [splitLinesGo.eq_1, if_pos hemp] at hp
    cases hp
  | case2 cur hemp =>
    intro hcur p hp c hc
    rw [splitLinesGo.eq_1, if_neg hemp] at hp
    simp only [List.mem_singleton] at hp
    subst hp
    exact hcur c (List.mem_reverse.mp hc)
  | case3 rest cur ih =>
    intro hcur p hp c hc
    rw [splitLinesGo.eq_2] at hp
    rcases List.mem_cons.mp hp with h | h
    · subst h
      exact hcur c (List.mem_reverse.mp hc)
    · exact ih (by intro x hx; cases hx) p h c hc
  | case4 a rest cur hne hb ih =>
    intro hcur p hp c hc
    rw [splitLinesGo.eq_3 cur a rest hne, if_pos hb] at hp
    rcases List.mem_cons.mp hp with h | h
    · subst h
      exact hcur c (List.mem_reverse.mp hc)
    · exact ih (by intro x hx; cases hx) p h c hc
  | case5 a rest cur hne hb ih =>
    intro hcur p hp c hc
    rw [splitLinesGo.eq_3 cur a rest hne, if_neg hb] at hp
    refine ih ?_ p hp c hc
    intro x hx
    rcases List.mem_cons.mp hx with h | h
    · subst h
      exact Bool.eq_false_iff.mpr hb
    · exact hcur x h

/-- Every piece of `splitLinesPy` is free of line-boundary characters. -/
theorem splitLinesPy_no_boundary (s : String) :
    ∀ p ∈ splitLinesPy s, ∀ c ∈ p.data, isLineBoundary c = false :=
  splitLinesGo_no_boundary s.data [] (by intro c hc; cases hc)

/-! ## Claims C3, C4 and C10: the truncation policy -/

/-- C3: `shorten_text` returns the text unchanged when the cap is the
no-limit sentinel `-1`; for non-empty text whose line count is at most a
(non-negative) cap it keeps all lines and appends `"..."` exactly when
the child has subsections; for non-empty text with more lines than the
cap it keeps exactly the first `cap` lines and appends `"..."`
unconditionally. -/
theorem c3_shorten_text_truncation :
    (∀ (text : String) (subs : List ContentNode),
      shorten_text text (-1) subs = text) ∧
    (∀ (text : String) (cap : Int) (subs : List ContentNode),
      text ≠ "" → 0 ≤ cap → ((splitLinesPy text).length : Int) ≤ cap →
      shorten_text text cap subs =
        String.join (splitLinesPy text ++ if subs.isEmpty then [] else ["..."])) ∧
    (∀ (text : String) (cap : Int) (subs : List ContentNode),
      text ≠ "" → 0 ≤ cap → cap < ((splitLinesPy text).length : Int) →
      shorten_text text cap subs =
        String.join ((splitLinesPy text).take cap.toNat ++ ["..."])) := by
  refine ⟨?_, ?_, ?_⟩
  · intro text subs
    simp [shorten_text]
  · intro text cap subs hne hcap hlen
    have h1 : ¬cap = -1 := by omega
    simp [shorten_text, h1, hne, hlen]
  · intro text cap subs hne hcap hlen
    have h1 : ¬cap = -1 := by omega
    have h2 : ¬((splitLinesPy text).length : Int) ≤ cap := by omega
    simp [shorten_text, h1, hne, h2, hcap]

theorem c3_shorten_text_truncation_witness :
    shorten_text "x" (-1) [] = "x" ∧
    shorten_text "a\nb" 2 [CNode "X" "" none []] = "ab..." ∧
    shorten_text "a\nb\nc" 1 [] = "a..." :=
  ⟨c3_shorten_text_truncation.1 "x" [],
   (c3_shorten_text_truncation.2.1 "a\nb" 2 [CNode "X" "" none []]
      (by decide) (by decide) (by decide)).trans (by decide),
   (c3_shorten_text_truncation.2.2 "a\nb\nc" 1 []
      (by decide) (by decide) (by decide)).trans (by decide)⟩

/-- C4: on empty text with a non-empty subsections list (and a cap other
than the `-1` sentinel, which returns the text unchanged by the previous
clause), `shorten_text` returns the non-empty fallback markup listing
every subsection's title. -/
theorem c4_empty_text_fallback (cap : Int) (subs : List ContentNode)
    (hcap : cap ≠ -1) (hsub : subs ≠ []) :
    shorten_text "" cap subs =
      "<p>Covered topics in this subsection:</p><ul>" ++
        String.join (subs.map (fun c => "<li>" ++ c.title ++ "</li>")) ++ "</ul>" ∧
    shorten_text "" cap subs ≠ "" := by
  have heq : shorten_text "" cap subs =
      "<p>Covered topics in this subsection:</p><ul>" ++
        String.join (subs.map (fun c => "<li>" ++ c.title ++ "</li>")) ++ "</ul>" := by
    simp only [shorten_text, if_neg hcap, if_pos rfl]
    exact foldl_const_of_ne_nil _ subs "" hsub
  refine ⟨heq, ?_⟩
  rw [heq]
  intro h
  have hlen := congrArg String.length h
  rw [String.length_append, String.length_append] at hlen
  have h1 : ("<p>Covered topics in this subsection:</p><ul>" : String).length = 45 := by
    decide
  have h2 : ("" : String).length = 0 := rfl
  omega

theorem c4_empty_text_fallback_witness :
    shorten_text "" 1 [CNode "X" "" none []] =
      "<p>Covered topics in this subsection:</p><ul><li>X</li></ul>" ∧
    shorten_text "" 1 [CNode "X" "" none []] ≠ "" := by
  have h := c4_empty_text_fallback 1 [CNode "X" "" none []]
    (by decide) (by simp)
  exact ⟨h.1.trans (by decide), h.2⟩

/-- C10 (implicit): whenever `shorten_text` keeps or truncates the lines
of a non-empty text, the result is the plain concatenation (empty-string
join) of retained lines and possibly the `"..."` marker, so no line
boundary character survives into the digest text. -/
theorem c10_lines_joined_without_separator :
    ∀ (text : String) (cap : Int) (subs : List ContentNode),
      text ≠ "" → cap ≠ -1 →
      (∃ ps : List String, shorten_text text cap subs = String.join ps ∧
        ∀ p ∈ ps, p ∈ splitLinesPy text ∨ p = "...") ∧
      (∀ c ∈ (shorten_text text cap subs).data, isLineBoundary c = false) := by
  intro text cap subs hne hcap
  obtain ⟨ps, heq, hmem⟩ : ∃ ps, shorten_text text cap subs = String.join ps ∧
      ∀ p ∈ ps, p ∈ splitLinesPy text ∨ p = "..." := by
    by_cases hle : ((splitLinesPy text).length : Int) ≤ cap
    · refine ⟨splitLinesPy text ++ (if subs.isEmpty then [] else ["..."]), ?_, ?_⟩
      · simp [shorten_text, hcap, hne, hle]
      · intro p hp
        rcases List.mem_append.mp hp with h | h
        · exact Or.inl h
        · right
          split at h
          · cases h
          · simpa using h
    · by_cases hpos : 0 ≤ cap
      · refine ⟨(splitLinesPy text).take cap.toNat ++ ["..."], ?_, ?_⟩
        · simp [shorten_text, hcap, hne, hle, hpos]
        · intro p hp
          rcases List.mem_append.mp hp with h | h
          · exact Or.inl (List.mem_of_mem_take h)
          · right; simpa using h
      · refine ⟨(splitLinesPy text).take
            ((splitLinesPy text).length - min (splitLinesPy text).length (-cap).toNat)
            ++ ["..."], ?_, ?_⟩
        · simp [shorten_text, hcap, hne, hle, hpos]
        · intro p hp
          rcases List.mem_append.mp hp with h | h
          · exact Or.inl (List.mem_of_mem_take h)
          · right; simpa using h
  refine ⟨⟨ps, heq, hmem⟩, ?_⟩
  intro c hc
  rw [heq, String.data_join] at hc
  rcases List.mem_flatten.mp hc with ⟨l, hl, hcl⟩
  rcases List.mem_map.mp hl with ⟨p, hp, rfl⟩
  rcases hmem p hp with h | h
  · exact splitLinesPy_no_boundary text p h c hcl
  · subst h
    have hd : ("..." : String).data = ['.', '.', '.'] := rfl
    rw [hd] at hcl
    rcases hcl with _ | ⟨_, hcl⟩
    · decide
    · rcases hcl with _ | ⟨_, hcl⟩
      · decide
      · rcases hcl with _ | ⟨_, hcl⟩
        · decide
        · cases hcl

theorem c10_lines_joined_without_separator_witness :
    (∃ ps : List String, shorten_text "a\nb" 1 [] = String.join ps ∧
      ∀ p ∈ ps, p ∈ splitLinesPy "a\nb" ∨ p = "...") ∧
    (∀ c ∈ (shorten_text "a\nb" 1 []).data, isLineBoundary c = false) :=
  c10_lines_joined_without_separator "a\nb" 1 [] (by decide) (by decide)

/-! ## Claim C6: the digest hash is a pure 128-bit lowercase-hex function -/

theorem foldlPreserve {α β : Type} (P : β → Prop) (f : β → α → β)
    (hf : ∀ b a, P b → P (f b a)) :
    ∀ (l : List α) (init : β), P init → P (l.foldl f init) := by
  intro l
  induction l with
  | nil => intro init h; exact h
  | cons x xs ih => intro init h; exact ih _ (hf _ _ h)

theorem blakeCompress_length (h m : List Nat) (t : Nat) (f : Bool) :
    (blakeCompress h m t f).length = 8 := by
  simp [blakeCompress]

theorem sum_map_ofConst {α : Type} (l : List α) (f : α → Nat) (k : Nat)
    (hf : ∀ x, f x = k) : (l.map f).sum = k * l.length := by
  induction l with
  | nil => simp
  | cons x xs ih =>
    simp only [List.map_cons, List.sum_cons, ih, hf, List.length_cons]
    ring

theorem blake2b16_length (input : List Nat) : (blake2b16 input).length = 16 := by
  simp only [blake2b16]
  rw [List.length_take, List.length_flatMap]
  have h8 : (((chunks128 input).enum).foldl
      (fun h p =>
        if p.1 + 1 = (chunks128 input).length then
          blakeCompress h (blockWords (p.2 ++ List.replicate (128 - p.2.length) 0))
            input.length true
        else blakeCompress h (blockWords p.2) (128 * (p.1 + 1)) false)
      (blakeIV.set 0 (xor64 (vget blakeIV 0) 0x01010010))).length = 8 := by
    refine foldlPreserve (fun (x : List Nat) => x.length = 8) _ ?_ _ _ ?_
    · intro b a _
      dsimp only
      split
      · apply blakeCompress_length
      · apply blakeCompress_length
    · show (blakeIV.set 0 (xor64 (vget blakeIV 0) 0x01010010)).length = 8
      rw [List.length_set]
      rfl
  rw [sum_map_ofConst _ (List.length ∘ le8) 8
    (fun w => by simp [le8, Function.comp]), h8]
  omega

theorem hexChar_mem : ∀ k, k < 16 → hexChar k ∈ hexCharsLower := by decide

theorem byteHex_data (b : Nat) :
    (byteHex b).data = [hexChar (b / 16 % 16), hexChar (b % 16)] := rfl

theorem byteHex_mem_hex (b : Nat) : ∀ c ∈ (byteHex b).data, c ∈ hexCharsLower := by
  intro c hc
  rw [byteHex_data] at hc
  rcases hc with _ | ⟨_, hc⟩
  · exact hexChar_mem _ (Nat.mod_lt _ (by norm_num))
  · rcases hc with _ | ⟨_, hc⟩
    · exact hexChar_mem _ (Nat.mod_lt _ (by norm_num))
    · cases hc

theorem bytesHex_length (l : List Nat) : (bytesHex l).length = 2 * l.length := by
  show (bytesHex l).data.length = 2 * l.length
  rw [bytesHex, String.data_join, List.length_flatten, List.map_map, List.map_map]
  rw [sum_map_ofConst _ ((List.length ∘ String.data) ∘ byteHex) 2 (fun b => rfl)]

/-- C6: `compute_digest_hash` is a pure function of the digest content —
equal `SectionDigest` values hash to equal strings — and its output is
always a 32-character lowercase-hex string (16 BLAKE2b digest bytes). -/
theorem c6_hash_deterministic_hex : ∀ d d' : SectionDigest, d = d' →
    compute_digest_hash d = compute_digest_hash d' ∧
    (compute_digest_hash d).length = 32 ∧
    ∀ c ∈ (compute_digest_hash d).data, c ∈ hexCharsLower := by
  intro d d' hdd
  subst hdd
  refine ⟨rfl, ?_, ?_⟩
  · rw [compute_digest_hash, bytesHex_length, blake2b16_length]
  · intro c hc
    rw [compute_digest_hash, bytesHex, String.data_join] at hc
    rcases List.mem_flatten.mp hc with ⟨l, hl, hcl⟩
    rw [List.map_map] at hl
    rcases List.mem_map.mp hl with ⟨b, _, rfl⟩
    exact byteHex_mem_hex b c hcl

theorem c6_hash_deterministic_hex_witness :
    compute_digest_hash ⟨"a", "b", []⟩ = compute_digest_hash ⟨"a", "b", []⟩ ∧
    (compute_digest_hash ⟨"a", "b", []⟩).length = 32 ∧
    ∀ c ∈ (compute_digest_hash ⟨"a", "b", []⟩).data, c ∈ hexCharsLower :=
  c6_hash_deterministic_hex ⟨"a", "b", []⟩ ⟨"a", "b", []⟩ rfl

/-! ## Claim C7: one flat entry per node, pre-order, parent-linked -/

theorem process_nodeList_eq_flatMap :
    ∀ (l : ContentNodeList) (p : Option String),
      process_nodeList l p = (l.toList).flatMap (fun c => process_node c p)
  | .nil, p => by simp [process_nodeList, ContentNodeList.toList]
  | .cons c rest, p => by
    rw [process_nodeList, process_nodeList_eq_flatMap rest p]
    simp [ContentNodeList.toList]

theorem preorderFlattenL_eq_flatMap :
    ∀ (l : ContentNodeList) (p : Option String),
      preorderFlattenL l p = (l.toList).flatMap (fun c => preorderFlatten c p)
  | .nil, p => by simp [preorderFlattenL, ContentNodeList.toList]
  | .cons c rest, p => by
    rw [preorderFlattenL, preorderFlattenL_eq_flatMap rest p]
    simp [ContentNodeList.toList]

theorem countNodesL_eq_sum :
    ∀ (l : ContentNodeList), countNodesL l = ((l.toList).map countNodes).sum
  | .nil => by simp [countNodesL, ContentNodeList.toList]
  | .cons c rest => by
    rw [countNodesL, countNodesL_eq_sum rest]
    simp [ContentNodeList.toList]

theorem length_process_node : ∀ (t : ContentNode) (p : Option String),
    (process_node t p).length = countNodes t := by
  intro t
  induction t using ContentNode.memInduction with
  | step title text level subs ih =>
    intro p
    rw [process_node, countNodes, process_nodeList_eq_flatMap, countNodesL_eq_sum]
    simp only [List.length_cons, List.length_flatMap, List.map_map, Function.comp_def]
    rw [List.map_congr_left (fun c (hc : c ∈ subs.toList) => ih c hc _)]
    omega

theorem process_node_eq_flatten : ∀ (t : ContentNode) (p : Option String),
    process_node t p = (preorderFlatten t p).map (fun q => mkDigestNode q.1 q.2) := by
  intro t
  induction t using ContentNode.memInduction with
  | step title text level subs ih =>
    intro p
    rw [process_node, preorderFlatten, process_nodeList_eq_flatMap,
      preorderFlattenL_eq_flatMap]
    simp only [List.map_cons, List.map_flatMap]
    congr 1
    refine List.flatMap_congr ?_
    intro c hc
    exact ih c hc _

/-- C7: `process_node` emits exactly one entry per node of the tree, in
pre-order (each node before its subsections, subsections in document
order), each entry's `parent_digest_hash` being its immediate parent's
`digest_hash` and the root's being `none` — precisely the spec-side
traversal `preorderFlatten`. -/
theorem c7_preorder_one_to_one_linkage : ∀ (t : ContentNode),
    process_node t none =
      (preorderFlatten t none).map (fun q => mkDigestNode q.1 q.2) ∧
    (process_node t none).length = countNodes t ∧
    (process_node t none).head?.map (fun d => d.parent_digest_hash) = some none := by
  intro t
  refine ⟨process_node_eq_flatten t none, length_process_node t none, ?_⟩
  cases t with
  | mk title text level subs =>
    rw [process_node]
    rfl

/-! ## Claim C5: a subtree without headings is handled without error -/

/-- C5: for a subtree containing no heading at all (neither the root
element nor any descendant), the chunker returns a node with empty
title, absent level, the content-inclusion-policy text and no
subsections — and in particular no error path exists. -/
theorem c5_no_heading_subtree (root : Html) (fuel : Nat)
    (hroot : is_heading root = false)
    (hdesc : ∀ e ∈ Html.descTags root, is_heading e = false) :
    parse_to_dict (fuel + 1) root =
      CNode "" (extract_html_content root) none [] := by
  have hcnt : (root.descTags).countP (fun c => is_heading c) = 0 := by
    rw [List.countP_eq_zero]
    intro a ha
    simp [hdesc a ha]
  have hbc : ¬(is_base_case root = true) := by
    rw [is_base_case, if_neg (by simp [hroot]), hcnt]
    decide
  have hnil : (root.descTags).filterMap
      (fun e => (get_aria_level e).map (fun l => (e, l))) = [] := by
    rw [List.filterMap_eq_nil_iff]
    intro a ha
    have h := hdesc a ha
    rw [is_heading] at h
    cases hga : get_aria_level a with
    | none => rfl
    | some v => rw [hga] at h; simp at h
  have hanchor : anchorData root = none := by
    rw [anchorData, find_highest_aria_element, hnil]
    rfl
  rw [parse_to_dict, if_neg hbc, hanchor]

theorem c5_no_heading_subtree_witness :
    parse_to_dict 1 (Html.el "div" [] [Html.el "p" [] [Html.text "hello"]]) =
      CNode "" "<p>hello</p>" none [] :=
  (c5_no_heading_subtree (Html.el "div" [] [Html.el "p" [] [Html.text "hello"]]) 0
    (by decide) (by decide)).trans (by rfl)

/-! ## Claim C1: the worked example (code bug) -/

/-- C1 (code bug): on the input
`<h1>T</h1><p>A</p><h2>S1</h2><p>B</p><h2>S2</h2><p>C</p>` the Section
Chunker does not return the claimed result.  The composite branch of
`parse_to_dict` assembles each subsection fragment from
`copy.deepcopy(heading).find()` — the first *tag* descendant of the
heading, which is `None` for a text-only heading, so the heading is
dropped — and from `BeautifulSoup(str(element), 'lxml').find()`, which
is the `html` wrapper element `lxml` adds around the fragment.  The
subsections therefore come back with empty titles, no level and
`html/body`-wrapped text, contradicting the claim and the repository's
own `test_parse_to_dict` expectations. -/
theorem c1_section_chunker_example :
    parse_html 10 c1Doc = c1Actual ∧ c1Actual ≠ c1Claimed := by
  constructor
  · rfl
  · intro h
    have h2 := congrArg (fun t => t.subsections.map ContentNode.title) h
    revert h2
    decide

/-! ## Claim C2: the direct-subsection boundary rule (corrected) -/

/-- C2 counterexample: in `<body><h1>T</h1><h2>A</h2><h3>B</h3></body>`
the `h3` has rank `3 ≥ 1` and, when it is examined, the only element
between the anchor and it (the `h2`) is already processed — so the
claim's rule (excluded exactly when a still-unprocessed strictly-between
heading exists) predicts `h3` is accepted as a direct subsection; the
code skips it, because accepting `h2` marked `h3` processed as `h2`'s
own section content. -/
theorem c2_counterexample : ¬ C2Claim c2Body := by
  intro h
  exact absurd
    (h (Html.el "h1" [] [Html.text "T"]) 1 0 rfl
      ⟨[2], [[1]], [[1], [2]], false⟩ (by decide))
    (by decide)

theorem pickMin_foldl_le :
    ∀ (l : List (Html × Int)) (acc : Option (Html × Int)) (r : Html × Int),
      l.foldl pickMin acc = some r →
      (∀ p ∈ l, r.2 ≤ p.2) ∧ (∀ q, acc = some q → r.2 ≤ q.2) ∧
      (acc = some r ∨ r ∈ l) := by
  intro l
  induction l with
  | nil =>
    intro acc r h
    simp only [List.foldl_nil] at h
    refine ⟨by simp, ?_, Or.inl h⟩
    intro q hq
    rw [h] at hq
    cases hq
    exact le_refl _
  | cons p rest ih =>
    intro acc r h
    rw [List.foldl_cons] at h
    obtain ⟨h1, h2, h3⟩ := ih (pickMin acc p) r h
    have hstep : r.2 ≤ p.2 ∧ (∀ q, acc = some q → r.2 ≤ q.2) ∧
        (acc = some r ∨ r = p ∨ r ∈ rest) := by
      cases acc with
      | none =>
        have hp := h2 p rfl
        refine ⟨hp, ?_, ?_⟩
        · intro q hq
          cases hq
        rcases h3 with h3 | h3
        · rw [pickMin] at h3
          cases h3
          exact Or.inr (Or.inl rfl)
        · exact Or.inr (Or.inr h3)
      | some q0 =>
        by_cases hlt : p.2 < q0.2
        · have hp := h2 p (by rw [pickMin]; simp [hlt])
          refine ⟨hp, ?_, ?_⟩
          · intro q hq
            injection hq with hq
            subst hq
            omega
          · rcases h3 with h3 | h3
            · rw [pickMin] at h3
              simp [hlt] at h3
              exact Or.inr (Or.inl h3.symm)
            · exact Or.inr (Or.inr h3)
        · have hq0 := h2 q0 (by rw [pickMin]; simp [hlt])
          refine ⟨by omega, ?_, ?_⟩
          · intro q hq
            injection hq with hq
            subst hq
            exact hq0
          · rcases h3 with h3 | h3
            · rw [pickMin] at h3
              simp [hlt] at h3
              exact Or.inl (by rw [h3])
            · exact Or.inr (Or.inr h3)
    refine ⟨?_, hstep.2.1, ?_⟩
    · intro x hx
      rcases List.mem_cons.mp hx with rfl | hx
      · exact hstep.1
      · exact h1 x hx
    · rcases hstep.2.2 with h' | h' | h'
      · exact Or.inl h'
      · exact Or.inr (by rw [h']; exact List.mem_cons_self _ _)
      · exact Or.inr (List.mem_cons_of_mem _ h')

theorem pathsL_ne_nil :
    ∀ (l : HtmlList) (k : Nat), ∀ p ∈ l.pathsL k, p ≠ []
  | .nil, _, p, hp => absurd hp (by simp [HtmlList.pathsL])
  | .cons (.text s) rest, k, p, hp =>
    pathsL_ne_nil rest (k + 1) p (by rw [HtmlList.pathsL] at hp; exact hp)
  | .cons (.tag n a cs) rest, k, p, hp => by
    rw [HtmlList.pathsL] at hp
    rcases List.mem_append.mp hp with h | h
    · rcases List.mem_cons.mp h with rfl | h2
      · simp
      · rcases List.mem_map.mp h2 with ⟨q, _, rfl⟩
        simp
    · exact pathsL_ne_nil rest (k + 1) p h

theorem pathsL_resolve :
    ∀ (l : HtmlList) (k : Nat) (cs : List Html),
      (∀ j, cs[j + k]? = (l.toList)[j]?) →
      ∀ p ∈ l.pathsL k, ∃ e ∈ l.descTagsL, listNodeAt cs p = some e
  | .nil, _, _, _, p, hp => absurd hp (by simp [HtmlList.pathsL])
  | .cons (.text s) rest, k, cs, hcs, p, hp => by
    rw [HtmlList.pathsL] at hp
    have hshift : ∀ j, cs[j + (k + 1)]? = (rest.toList)[j]? := by
      intro j
      have := hcs (j + 1)
      rw [show j + 1 + k = j + (k + 1) by omega] at this
      rw [this]
      simp [HtmlList.toList]
    obtain ⟨e, he, hres⟩ := pathsL_resolve rest (k + 1) cs hshift p hp
    exact ⟨e, by rw [HtmlList.descTagsL]; exact he, hres⟩
  | .cons (.tag n a cc) rest, k, cs, hcs, p, hp => by
    have hk : cs[k]? = some (Html.tag n a cc) := by
      have := hcs 0
      simpa [HtmlList.toList] using this
    rw [HtmlList.pathsL] at hp
    rcases List.mem_append.mp hp with h | h
    · rcases List.mem_cons.mp h with rfl | h2
      · refine ⟨Html.tag n a cc, ?_, ?_⟩
        · rw [HtmlList.descTagsL]
          exact List.mem_cons_self _ _
        · rw [listNodeAt, hk]
          rfl
      · rcases List.mem_map.mp h2 with ⟨q, hq, rfl⟩
        obtain ⟨e, he, hres⟩ := pathsL_resolve cc 0 cc.toList (by simp) q hq
        refine ⟨e, ?_, ?_⟩
        · rw [HtmlList.descTagsL]
          exact List.mem_cons_of_mem _ (List.mem_append_left _ he)
        · rw [listNodeAt, hk]
          have hne := pathsL_ne_nil cc 0 q hq
          cases q with
          | nil => exact absurd rfl hne
          | cons j qrest =>
            exact hres
    · have hshift : ∀ j, cs[j + (k + 1)]? = (rest.toList)[j]? := by
        intro j
        have := hcs (j + 1)
        rw [show j + 1 + k = j + (k + 1) by omega] at this
        rw [this]
        simp [HtmlList.toList]
      obtain ⟨e, he, hres⟩ := pathsL_resolve rest (k + 1) cs hshift p h
      refine ⟨e, ?_, hres⟩
      rw [HtmlList.descTagsL]
      exact List.mem_cons_of_mem _ (List.mem_append_right _ he)

theorem findAllPaths_resolve (root : Html) :
    ∀ p ∈ root.findAllPaths, ∃ e ∈ root.descTags, root.nodeAt p = some e := by
  intro p hp
  rw [Html.findAllPaths] at hp
  obtain ⟨e, he, hres⟩ :=
    pathsL_resolve root.childrenL 0 root.children (by simp [Html.children]) p hp
  refine ⟨e, he, ?_⟩
  have hne := pathsL_ne_nil root.childrenL 0 p hp
  cases p with
  | nil => exact absurd rfl hne
  | cons i rest =>
    rw [Html.nodeAt]
    rw [listNodeAt] at hres
    exact hres

theorem anchor_min (root : Html) (hi : Html) (hl : Int) (pos : Nat)
    (h : anchorData root = some (hi, hl, pos)) :
    ∀ e ∈ root.descTags, ∀ lv, get_aria_level e = some lv → hl ≤ lv := by
  rw [anchorData] at h
  split at h
  · cases h
  rename_i hi2 hhi
  split at h
  · cases h
  rename_i hl2 hlv
  injection h with h'
  simp only [Prod.mk.injEq] at h'
  obtain ⟨rfl, rfl, -⟩ := h'
  rw [find_highest_aria_element] at hhi
  cases hfold : ((root.descTags).filterMap
      (fun e => (get_aria_level e).map (fun l => (e, l)))).foldl pickMin none with
  | none => rw [hfold] at hhi; cases hhi
  | some r =>
    rw [hfold] at hhi
    injection hhi with hr1
    obtain ⟨hmin, _, hmem⟩ := pickMin_foldl_le _ none r hfold
    rcases hmem with hmem | hmem
    · cases hmem
    · have hr : get_aria_level r.1 = some r.2 := by
        rcases List.mem_filterMap.mp hmem with ⟨a, _, hmap⟩
        cases hga : get_aria_level a with
        | none => rw [hga] at hmap; cases hmap
        | some lva =>
          rw [hga] at hmap
          injection hmap with hmap
          rw [← hmap]
          exact hga
      have hr2 : r.2 = hl2 := by
        have hr1b : r.1 = hi2 := hr1
        rw [hr1b] at hr
        rw [hr] at hlv
        injection hlv
      intro e he lv hlv2
      have hmemf : (e, lv) ∈ (root.descTags).filterMap
          (fun e => (get_aria_level e).map (fun l => (e, l))) :=
        List.mem_filterMap.mpr ⟨e, he, by rw [hlv2]; rfl⟩
      have := hmin (e, lv) hmemf
      rw [hr2] at this
      exact this

theorem afterAnchor_rank_bound (root : Html) (hi : Html) (hl : Int) (pos : Nat)
    (h : anchorData root = some (hi, hl, pos)) :
    ∀ p ∈ afterAnchorPaths root, ∀ lv,
      get_aria_level (root.at p) = some lv → hl ≤ lv := by
  intro p hp lv hlv
  rw [afterAnchorPaths, h] at hp
  have hmem : p ∈ root.findAllPaths := List.mem_of_mem_drop hp
  obtain ⟨e, he, hres⟩ := findAllPaths_resolve root p hmem
  have heq : root.at p = e := by rw [Html.at, hres]; rfl
  rw [heq] at hlv
  exact anchor_min root hi hl pos h e he lv hlv

theorem codeSelectRule_selected_irrelevant (root : Html) (hl : Int)
    (p : Path) (s pr : List Path) (b1 b2 : Bool) :
    codeSelectRule root hl ⟨p, s, pr, b1⟩ = codeSelectRule root hl ⟨p, s, pr, b2⟩ := rfl

theorem selStep_log (root : Html) (hl : Int) (st : SelState) (p : Path)
    (hstop : st.stopped = false)
    (hrank : ∀ lv, get_aria_level (root.at p) = some lv → hl ≤ lv) :
    (selStep root hl st p).stopped = false ∧
    (selStep root hl st p).log = st.log ++
      [⟨p, st.seen, st.processed,
        codeSelectRule root hl ⟨p, st.seen, st.processed, false⟩⟩] := by
  rw [selStep, if_neg (by simp [hstop])]
  by_cases hproc : st.processed.contains p
  · have hrule : codeSelectRule root hl ⟨p, st.seen, st.processed, false⟩ = false := by
      rw [codeSelectRule]
      dsimp only
      rw [hproc]
      rfl
    rw [if_pos hproc, hrule]
    exact ⟨hstop, rfl⟩
  · have hproc2 : st.processed.contains p = false := Bool.eq_false_iff.mpr hproc
    rw [if_neg hproc]
    cases hga : get_aria_level (root.at p) with
    | none =>
      dsimp only
      have hrule : codeSelectRule root hl ⟨p, st.seen, st.processed, false⟩ = false := by
        rw [codeSelectRule]
        dsimp only
        rw [hga]
        simp
      rw [hrule]
      exact ⟨hstop, rfl⟩
    | some l =>
      dsimp only
      have hle : hl ≤ l := hrank l hga
      by_cases h0 : l = 0
      · have hc1 : ¬(decide (l ≠ 0) && decide (hl ≤ l)) = true := by simp [h0]
        have hc2 : ¬(decide (l ≠ 0) && decide (l ≤ hl)) = true := by simp [h0]
        rw [if_neg hc1, if_neg hc2]
        have hrule : codeSelectRule root hl ⟨p, st.seen, st.processed, false⟩ = false := by
          rw [codeSelectRule]
          dsimp only
          rw [hga]
          dsimp only
          simp [h0]
        rw [hrule]
        exact ⟨hstop, rfl⟩
      · have hc1 : (decide (l ≠ 0) && decide (hl ≤ l)) = true := by simp [h0, hle]
        rw [if_pos hc1]
        by_cases hblock : hasBlockingIntermediate root hl st l = true
        · rw [if_pos hblock]
          have hrule : codeSelectRule root hl ⟨p, st.seen, st.processed, false⟩ = false := by
            rw [codeSelectRule]
            dsimp only
            rw [hga]
            dsimp only
            rw [hasBlockingIntermediate] at hblock
            rw [hblock]
            simp
          rw [hrule]
          exact ⟨hstop, rfl⟩
        · rw [if_neg hblock]
          have hblock2 : hasBlockingIntermediate root hl st l = false :=
            Bool.eq_false_iff.mpr hblock
          have hrule : codeSelectRule root hl ⟨p, st.seen, st.processed, false⟩ = true := by
            rw [codeSelectRule]
            dsimp only
            rw [hga]
            dsimp only
            rw [hasBlockingIntermediate] at hblock2
            rw [hblock2, hproc2]
            simp [h0, hle]
          rw [hrule]
          exact ⟨rfl, rfl⟩

theorem selFold_log (root : Html) (hl : Int) :
    ∀ (l : List Path) (st : SelState),
      st.stopped = false →
      (∀ p ∈ l, ∀ lv, get_aria_level (root.at p) = some lv → hl ≤ lv) →
      (l.foldl (selStep root hl) st).stopped = false ∧
      ∃ news, (l.foldl (selStep root hl) st).log = st.log ++ news ∧
        news.map (fun e => e.path) = l ∧
        ∀ e ∈ news, e.selected = codeSelectRule root hl e := by
  intro l
  induction l with
  | nil =>
    intro st h1 _
    exact ⟨h1, [], by simp, rfl, by simp⟩
  | cons p rest ih =>
    intro st h1 h2
    obtain ⟨hs, hlog⟩ := selStep_log root hl st p h1 (h2 p (List.mem_cons_self _ _))
    obtain ⟨hs2, news, hl2, hmap, hsel⟩ :=
      ih (selStep root hl st p) hs (fun q hq => h2 q (List.mem_cons_of_mem _ hq))
    refine ⟨hs2,
      ⟨p, st.seen, st.processed,
        codeSelectRule root hl ⟨p, st.seen, st.processed, false⟩⟩ :: news, ?_, ?_, ?_⟩
    · rw [List.foldl_cons, hl2, hlog, List.append_assoc]
      rfl
    · simp [hmap]
    · intro e he
      rcases List.mem_cons.mp he with rfl | he
      · exact codeSelectRule_selected_irrelevant root hl p st.seen st.processed _ false
      · exact hsel e he

/-- C2 amended: in composite decomposition the scan examines every
element after the anchor in document order (it never stops early, the
anchor having minimal rank), and an examined element is accepted as a
direct-subsection boundary exactly when, at the moment it is examined,
it is still unprocessed, it is a heading of truthy (nonzero) rank at
least the anchor's rank, and no still-unprocessed already-examined
heading has truthy rank between the anchor's rank and its rank, both
bounds included. -/
theorem c2_amended_boundary_rule (root : Html) (hi : Html) (hl : Int) (pos : Nat)
    (h : anchorData root = some (hi, hl, pos)) :
    (selectionLog root).map (fun e => e.path) = afterAnchorPaths root ∧
    ∀ entry ∈ selectionLog root, entry.selected = codeSelectRule root hl entry := by
  have hrank := afterAnchor_rank_bound root hi hl pos h
  obtain ⟨-, news, hlog, hmap, hsel⟩ :=
    selFold_log root hl (afterAnchorPaths root) selectionInit rfl hrank
  have hlogeq : selectionLog root = news := by
    rw [selectionLog, selectionFinal, h]
    rw [hlog]
    rfl
  rw [hlogeq]
  exact ⟨hmap, hsel⟩

theorem c2_amended_boundary_rule_witness :
    (selectionLog c2Body).map (fun e => e.path) = afterAnchorPaths c2Body ∧
    ∀ entry ∈ selectionLog c2Body, entry.selected = codeSelectRule c2Body 1 entry :=
  c2_amended_boundary_rule c2Body (Html.el "h1" [] [Html.text "T"]) 1 0 rfl

/-! ## Claim C8: round-trip through parent-hash reconstruction -/

/-- C8 counterexample: `c8Tree` has two structurally identical sibling
subtrees, which by design share one digest hash; hash-linkage
reconstruction therefore assigns both `B` entries to both rebuilt `A`
nodes (7 nodes instead of 5), so re-flattening cannot reproduce the
hash sequence. -/
theorem c8_counterexample : ¬ roundTripIdempotent c8Tree := by
  rw [roundTripIdempotent]
  intro h
  have hlen := congrArg List.length h
  simp only [List.length_map] at hlen
  rw [length_process_node, length_process_node] at hlen
  revert hlen
  set_option maxRecDepth 1000000 in decide

theorem eraseLevels_title (c : ContentNode) : (eraseLevels c).title = c.title := by
  cases c
  rw [eraseLevels]
  rfl

theorem eraseLevels_text (c : ContentNode) : (eraseLevels c).text = c.text := by
  cases c
  rw [eraseLevels]
  rfl

theorem toList_eraseLevelsL :
    ∀ l : ContentNodeList, (eraseLevelsL l).toList = l.toList.map eraseLevels
  | .nil => rfl
  | .cons c rest => by
    rw [eraseLevelsL]
    simp [ContentNodeList.toList, toList_eraseLevelsL rest]

theorem eraseLevels_subsections (c : ContentNode) :
    (eraseLevels c).subsections = c.subsections.map eraseLevels := by
  cases c
  rw [eraseLevels]
  simp [ContentNode.subsections, ContentNode.subsectionsL, toList_eraseLevelsL]

theorem shorten_text_map_eraseLevels (x : String) (n : Int)
    (subs : List ContentNode) :
    shorten_text x n (subs.map eraseLevels) = shorten_text x n subs := by
  by_cases h1 : n = -1
  · simp [shorten_text, h1]
  · by_cases h2 : x = ""
    · subst h2
      cases subs with
      | nil => rfl
      | cons c rest =>
        rw [shorten_text, shorten_text, if_neg h1, if_neg h1, if_pos rfl, if_pos rfl]
        rw [foldl_const_of_ne_nil _ _ _ (by simp), foldl_const_of_ne_nil _ _ _ (by simp)]
        rw [List.map_map]
        have hmap : List.map ((fun child => "<li>" ++ child.title ++ "</li>") ∘ eraseLevels)
            (c :: rest) = List.map (fun child => "<li>" ++ child.title ++ "</li>") (c :: rest) :=
          List.map_congr_left (fun d _ => by simp [Function.comp_def, eraseLevels_title])
        rw [hmap]
    · rw [shorten_text, shorten_text, if_neg h1, if_neg h1, if_neg h2, if_neg h2]
      cases subs <;> rfl

theorem generate_eraseLevels (n : ContentNode) :
    generate_section_digest (eraseLevels n) = generate_section_digest n := by
  cases n with
  | mk ti te l subs =>
    rw [eraseLevels, generate_section_digest, generate_section_digest]
    simp only [ContentNode.title, ContentNode.text, ContentNode.subsections,
      ContentNode.subsectionsL, toList_eraseLevelsL]
    congr 1
    rw [List.map_map]
    refine List.map_congr_left ?_
    intro c _
    cases c with
    | mk a b lv s =>
      simp only [Function.comp_def, eraseLevels]
      rw [toList_eraseLevelsL, shorten_text_map_eraseLevels]

theorem process_node_eraseLevels :
    ∀ (t : ContentNode) (p : Option String),
      process_node (eraseLevels t) p = process_node t p := by
  intro t
  induction t using ContentNode.memInduction with
  | step ti te l subs ih =>
    intro p
    have herase : eraseLevels (ContentNode.mk ti te l subs) =
        ContentNode.mk ti te none (eraseLevelsL subs) := by rw [eraseLevels]
    rw [herase, process_node, process_node, process_nodeList_eq_flatMap,
      process_nodeList_eq_flatMap, toList_eraseLevelsL]
    have hg : generate_section_digest (ContentNode.mk ti te none (eraseLevelsL subs)) =
        generate_section_digest (ContentNode.mk ti te l subs) := by
      rw [← herase]
      exact generate_eraseLevels (ContentNode.mk ti te l subs)
    rw [hg]
    congr 1
    rw [List.flatMap_map]
    refine List.flatMap_congr ?_
    intro c hc
    exact ih c hc _

/-! ## Claim C8, amended: round trip under collision freedom -/

theorem subsectionsL_mk (t x : String) (l : Option Int) (s : ContentNodeList) :
    (ContentNode.mk t x l s).subsectionsL = s := rfl

theorem subsections_mk (t x : String) (l : Option Int) (s : ContentNodeList) :
    (ContentNode.mk t x l s).subsections = s.toList := rfl

theorem title_mk (t x : String) (l : Option Int) (s : ContentNodeList) :
    (ContentNode.mk t x l s).title = t := rfl

theorem text_mk (t x : String) (l : Option Int) (s : ContentNodeList) :
    (ContentNode.mk t x l s).text = x := rfl

theorem mkDigestNode_digest_hash (n : ContentNode) (p : Option String) :
    (mkDigestNode n p).digest_hash = digestOf n := by
  simp only [mkDigestNode]

theorem mkDigestNode_title (n : ContentNode) (p : Option String) :
    (mkDigestNode n p).title = n.title := by
  simp only [mkDigestNode]

theorem mkDigestNode_text (n : ContentNode) (p : Option String) :
    (mkDigestNode n p).text = n.text := by
  simp only [mkDigestNode]

theorem preorderFlatten_cons (u : ContentNode) (p : Option String) :
    preorderFlatten u p =
      (u, p) :: preorderFlattenL u.subsectionsL (some (digestOf u)) := by
  cases u with
  | mk t x l s => rfl

theorem childPairs_sublist :
    ∀ (l : ContentNodeList) (p : Option String),
      (l.toList.map (fun c => (c, p))).Sublist (preorderFlattenL l p)
  | .nil, p => by simp [ContentNodeList.toList, preorderFlattenL]
  | .cons c rest, p => by
    rw [preorderFlattenL, preorderFlatten_cons]
    simp only [ContentNodeList.toList, List.map_cons, List.cons_append]
    exact List.Sublist.cons₂ _
      ((childPairs_sublist rest p).trans (List.sublist_append_right _ _))

theorem flatMap_component_sublist {α β : Type} (f : α → List β) :
    ∀ (l : List α) (c : α), c ∈ l → (f c).Sublist (l.flatMap f)
  | [], c, hc => absurd hc (List.not_mem_nil c)
  | x :: xs, c, hc => by
    rw [List.flatMap_cons]
    rcases List.mem_cons.mp hc with rfl | h
    · exact List.sublist_append_left _ _
    · exact (flatMap_component_sublist f xs c h).trans (List.sublist_append_right _ _)

theorem flatten_sublist_of_mem : ∀ (u : ContentNode), ∀ (p : Option String)
    (s : ContentNode) (ps : Option String),
    (s, ps) ∈ preorderFlatten u p →
      (preorderFlatten s ps).Sublist (preorderFlatten u p) := by
  intro u
  induction u using ContentNode.memInduction with
  | step title text level subs ih =>
    intro p s ps hmem
    rw [preorderFlatten_cons] at hmem
    simp only [subsectionsL_mk] at hmem
    have hgoal := preorderFlatten_cons (ContentNode.mk title text level subs) p
    rw [subsectionsL_mk] at hgoal
    rw [hgoal]
    rcases List.mem_cons.mp hmem with heq | hin
    · injection heq with h1 h2
      subst h1
      subst h2
      rw [hgoal]
    · refine List.sublist_cons_of_sublist _ ?_
      rw [preorderFlattenL_eq_flatMap] at hin ⊢
      rcases List.mem_flatMap.mp hin with ⟨c, hc, hcin⟩
      exact (ih c hc _ s ps hcin).trans
        (flatMap_component_sublist
          (fun c2 => preorderFlatten c2
            (some (digestOf (ContentNode.mk title text level subs))))
          subs.toList c hc)

theorem flatten_entry_parent : ∀ (u : ContentNode), ∀ (p : Option String)
    (v : ContentNode) (pv : Option String),
    (v, pv) ∈ preorderFlatten u p →
      (v, pv) = (u, p) ∨
      ∃ q pq, (q, pq) ∈ preorderFlatten u p ∧ v ∈ q.subsections ∧
        pv = some (digestOf q) := by
  intro u
  induction u using ContentNode.memInduction with
  | step title text level subs ih =>
    intro p v pv hmem
    rw [preorderFlatten_cons] at hmem
    simp only [subsectionsL_mk] at hmem
    rcases List.mem_cons.mp hmem with heq | hin
    · exact Or.inl heq
    · right
      rw [preorderFlattenL_eq_flatMap] at hin
      rcases List.mem_flatMap.mp hin with ⟨c, hc, hcin⟩
      rcases ih c hc _ v pv hcin with heq | ⟨q, pq, hq, hvq, hpv⟩
      · injection heq with h1 h2
        subst h1
        subst h2
        refine ⟨ContentNode.mk title text level subs, p, ?_, ?_, rfl⟩
        · rw [preorderFlatten_cons]
          exact List.mem_cons_self _ _
        · rw [subsections_mk]
          exact hc
      · refine ⟨q, pq, ?_, hvq, hpv⟩
        rw [preorderFlatten_cons]
        refine List.mem_cons_of_mem _ ?_
        simp only [subsectionsL_mk]
        rw [preorderFlattenL_eq_flatMap]
        exact List.mem_flatMap.mpr ⟨c, hc, hq⟩

theorem not_mem_own_subsections : ∀ (s : ContentNode), s ∉ s.subsections := by
  intro s hmem
  have h1 := ContentNodeList.sizeOf_lt_of_mem s.subsectionsL s
    (by simpa [ContentNode.subsections] using hmem)
  cases s with
  | mk t x l subs =>
    simp only [ContentNode.subsectionsL] at h1
    have h2 : sizeOf subs < sizeOf (ContentNode.mk t x l subs) := by
      simp only [ContentNode.mk.sizeOf_spec]
      omega
    omega

theorem sublist_eq_of_nodup {α : Type} :
    ∀ (l s₁ s₂ : List α), l.Nodup → s₁.Sublist l → s₂.Sublist l →
      (∀ x, x ∈ s₁ ↔ x ∈ s₂) → s₁ = s₂
  | [], s₁, s₂, _, h1, h2, _ => by
    rw [List.sublist_nil.mp h1, List.sublist_nil.mp h2]
  | a :: l, s₁, s₂, hn, h1, h2, hm => by
    have hnl := List.nodup_cons.mp hn
    cases h1 with
    | cons _ h1t =>
      cases h2 with
      | cons _ h2t => exact sublist_eq_of_nodup l s₁ s₂ hnl.2 h1t h2t hm
      | cons₂ _ h2t =>
        exact absurd (h1t.subset ((hm a).mpr (List.mem_cons_self a _))) hnl.1
    | cons₂ _ h1t =>
      cases h2 with
      | cons _ h2t =>
        exact absurd (h2t.subset ((hm a).mp (List.mem_cons_self a _))) hnl.1
      | cons₂ _ h2t =>
        congr 1
        refine sublist_eq_of_nodup l _ _ hnl.2 h1t h2t ?_
        intro x
        constructor
        · intro hx
          rcases List.mem_cons.mp ((hm x).mp (List.mem_cons_of_mem a hx)) with rfl | hx2
          · exact absurd (h1t.subset hx) hnl.1
          · exact hx2
        · intro hx
          rcases List.mem_cons.mp ((hm x).mpr (List.mem_cons_of_mem a hx)) with rfl | hx2
          · exact absurd (h2t.subset hx) hnl.1
          · exact hx2

theorem flatten_parent_mem_iff (t s : ContentNode) (ps : Option String)
    (nd : ((preorderFlatten t none).map (fun q => digestOf q.1)).Nodup)
    (hs : (s, ps) ∈ preorderFlatten t none) :
    ∀ v pv, (v, pv) ∈ preorderFlatten t none →
      (pv = some (digestOf s) ↔
        (v, pv) ∈ s.subsections.map (fun c => (c, some (digestOf s)))) := by
  intro v pv hq
  constructor
  · intro hpq
    rcases flatten_entry_parent t none v pv hq with heq | ⟨w, pw, hw, hvw, hpw⟩
    · have h2 : pv = none := congrArg Prod.snd heq
      rw [h2] at hpq
      exact absurd hpq (by simp)
    · have hde : digestOf w = digestOf s := by
        rw [hpw] at hpq
        exact Option.some.inj hpq
      have hws : (w, pw) = (s, ps) := List.inj_on_of_nodup_map nd hw hs hde
      have hw2 : w = s := congrArg Prod.fst hws
      subst hw2
      rw [hpq]
      exact List.mem_map.mpr ⟨v, hvw, rfl⟩
  · intro hmm
    rcases List.mem_map.mp hmm with ⟨c, hc, hceq⟩
    injection hceq with e1 e2
    exact e2.symm

theorem child_entry_mem (t s : ContentNode) (ps : Option String)
    (hs : (s, ps) ∈ preorderFlatten t none) :
    ∀ c ∈ s.subsections, (c, some (digestOf s)) ∈ preorderFlatten t none := by
  intro c hc
  refine (flatten_sublist_of_mem t none s ps hs).subset ?_
  rw [preorderFlatten_cons]
  refine List.mem_cons_of_mem _ ?_
  have h1 : (c, some (digestOf s)) ∈
      s.subsectionsL.toList.map (fun c2 => (c2, some (digestOf s))) :=
    List.mem_map.mpr ⟨c, hc, rfl⟩
  exact (childPairs_sublist s.subsectionsL (some (digestOf s))).subset h1

theorem flatten_filter_children (t s : ContentNode) (ps : Option String)
    (nd : ((preorderFlatten t none).map (fun q => digestOf q.1)).Nodup)
    (hs : (s, ps) ∈ preorderFlatten t none) :
    (preorderFlatten t none).filter (fun q => q.2 = some (digestOf s)) =
      s.subsections.map (fun c => (c, some (digestOf s))) := by
  have hnodup : (preorderFlatten t none).Nodup := nd.of_map
  refine sublist_eq_of_nodup (preorderFlatten t none) _ _ hnodup
    (List.filter_sublist _) ?_ ?_
  · have h1 : (s.subsections.map (fun c => (c, some (digestOf s)))).Sublist
        (preorderFlatten s ps) := by
      rw [preorderFlatten_cons]
      exact List.sublist_cons_of_sublist _
        (childPairs_sublist s.subsectionsL (some (digestOf s)))
    exact h1.trans (flatten_sublist_of_mem t none s ps hs)
  · intro x
    rw [List.mem_filter]
    constructor
    · rintro ⟨hxF, hxp⟩
      obtain ⟨v, pv⟩ := x
      exact (flatten_parent_mem_iff t s ps nd hs v pv hxF).mp (by simpa using hxp)
    · intro hx
      obtain ⟨v, pv⟩ := x
      rcases List.mem_map.mp hx with ⟨c, hc, hceq⟩
      injection hceq with e1 e2
      subst e1
      subst e2
      refine ⟨child_entry_mem t s ps hs _ hc, ?_⟩
      simp

theorem childEntries_process_node (t s : ContentNode) (ps : Option String)
    (nd : ((preorderFlatten t none).map (fun q => digestOf q.1)).Nodup)
    (hs : (s, ps) ∈ preorderFlatten t none) :
    childEntries (process_node t none) (digestOf s) =
      s.subsections.map (fun c => mkDigestNode c (some (digestOf s))) := by
  rw [childEntries, process_node_eq_flatten, List.filter_map]
  have hc1 : (preorderFlatten t none).filter
      ((fun d => decide (d.parent_digest_hash = some (digestOf s))) ∘
        (fun q => mkDigestNode q.1 q.2)) =
      (preorderFlatten t none).filter (fun q => decide (q.2 = some (digestOf s))) :=
    List.filter_congr (fun q _ => rfl)
  rw [hc1, flatten_filter_children t s ps nd hs, List.map_map]
  rfl

theorem countNodes_le_of_mem :
    ∀ (l : ContentNodeList), ∀ c ∈ l.toList, countNodes c ≤ countNodesL l
  | .nil, c, hc => absurd hc (by simp [ContentNodeList.toList])
  | .cons x xs, c, hc => by
    rcases List.mem_cons.mp (by simpa [ContentNodeList.toList] using hc) with rfl | h
    · rw [countNodesL]
      omega
    · have := countNodes_le_of_mem xs c h
      rw [countNodesL]
      omega

theorem countNodes_pos (u : ContentNode) : 1 ≤ countNodes u := by
  cases u with
  | mk t x l s =>
    rw [countNodes]
    omega

theorem ofList_toList_eraseLevelsL :
    ∀ (l : ContentNodeList),
      ContentNodeList.ofList (l.toList.map eraseLevels) = eraseLevelsL l
  | .nil => rfl
  | .cons c rest => by
    rw [ContentNodeList.toList, List.map_cons, ContentNodeList.ofList,
      ofList_toList_eraseLevelsL rest, eraseLevelsL]

theorem rebuild_correct (t : ContentNode)
    (nd : ((preorderFlatten t none).map (fun q => digestOf q.1)).Nodup) :
    ∀ (u : ContentNode), ∀ (pu : Option String) (fuel : Nat),
      (u, pu) ∈ preorderFlatten t none → countNodes u ≤ fuel →
      rebuildNode fuel (process_node t none) (mkDigestNode u pu) = eraseLevels u := by
  intro u
  induction u using ContentNode.memInduction with
  | step title text level subs ih =>
    intro pu fuel hmem hfuel
    have hpos : 1 ≤ countNodes (ContentNode.mk title text level subs) :=
      countNodes_pos _
    cases fuel with
    | zero => omega
    | succ f =>
      rw [rebuildNode, mkDigestNode_digest_hash,
        childEntries_process_node t (ContentNode.mk title text level subs) pu nd hmem,
        List.map_map, subsections_mk]
      have hcnt : countNodesL subs ≤ f := by
        rw [countNodes] at hfuel
        omega
      have hmapeq : subs.toList.map
          ((rebuildNode f (process_node t none)) ∘
            (fun c => mkDigestNode c
              (some (digestOf (ContentNode.mk title text level subs))))) =
          subs.toList.map eraseLevels := by
        refine List.map_congr_left ?_
        intro c hc
        have hcm : (c, some (digestOf (ContentNode.mk title text level subs))) ∈
            preorderFlatten t none := by
          refine child_entry_mem t (ContentNode.mk title text level subs) pu hmem c ?_
          rw [subsections_mk]
          exact hc
        have hcf : countNodes c ≤ f :=
          le_trans (countNodes_le_of_mem subs c hc) hcnt
        exact ih c hc _ f hcm hcf
      rw [hmapeq, mkDigestNode_title, mkDigestNode_text, title_mk, text_mk]
      rw [CNode, ofList_toList_eraseLevelsL, eraseLevels]

theorem reconstruct_eq_eraseLevels (t : ContentNode)
    (nd : ((process_node t none).map (fun d => d.digest_hash)).Nodup) :
    reconstructRootD (process_node t none) = eraseLevels t := by
  have hfun : ((fun d : DigestNode => d.digest_hash) ∘
      (fun q : ContentNode × Option String => mkDigestNode q.1 q.2)) =
      (fun q : ContentNode × Option String => digestOf q.1) :=
    funext (fun q => mkDigestNode_digest_hash q.1 q.2)
  have nd2 : ((preorderFlatten t none).map (fun q => digestOf q.1)).Nodup := by
    rw [process_node_eq_flatten, List.map_map, hfun] at nd
    exact nd
  have hlen : (process_node t none).length = countNodes t := length_process_node t none
  have hroot : (t, (none : Option String)) ∈ preorderFlatten t none := by
    rw [preorderFlatten_cons]
    exact List.mem_cons_self _ _
  have hmain := rebuild_correct t nd2 t none (countNodes t) hroot (le_refl _)
  have hhead : process_node t none =
      mkDigestNode t none ::
        ((preorderFlattenL t.subsectionsL (some (digestOf t))).map
          (fun q => mkDigestNode q.1 q.2)) := by
    rw [process_node_eq_flatten, preorderFlatten_cons, List.map_cons]
  rw [hhead]
  simp only [reconstructRootD]
  rw [← hhead, hlen]
  exact hmain

/-- C8 (amended): whenever the flat sequence emitted by `process_node`
has pairwise distinct `digest_hash` values — i.e. no content-hash
collision occurs — reconstructing the hierarchy by `parent_digest_hash`
linkage recovers the original tree up to the `level` field (which the
flat form does not carry), and re-flattening the reconstruction
reproduces the identical `digest_hash` sequence. -/
theorem c8_amended_round_trip (t : ContentNode)
    (nd : ((process_node t none).map (fun d => d.digest_hash)).Nodup) :
    reconstructRootD (process_node t none) = eraseLevels t ∧
    roundTripIdempotent t := by
  have h1 := reconstruct_eq_eraseLevels t nd
  refine ⟨h1, ?_⟩
  rw [roundTripIdempotent, h1, process_node_eraseLevels]

theorem c8_amended_round_trip_witness :
    ((process_node c8Small none).map (fun d => d.digest_hash)).Nodup ∧
    (reconstructRootD (process_node c8Small none) = eraseLevels c8Small ∧
     roundTripIdempotent c8Small) := by
  have nd : ((process_node c8Small none).map (fun d => d.digest_hash)).Nodup := by
    set_option maxRecDepth 1000000 in decide
  exact ⟨nd, c8_amended_round_trip c8Small nd⟩

/-! ## Claim C9: frame properties of the two passes -/

theorem HtmlList.toList_ofList : ∀ (l : List Html), (HtmlList.ofList l).toList = l
  | [] => rfl
  | c :: rest => by
    rw [HtmlList.ofList, HtmlList.toList, HtmlList.toList_ofList rest]

theorem appendChild_el (n : String) (a : List (String × String)) (kids : List Html)
    (c : Html) : (Html.el n a kids).appendChild c = Html.el n a (kids ++ [c]) := by
  rw [Html.el, Html.appendChild, HtmlList.toList_ofList, Html.el]

theorem getD_set_same {α : Type} (d x : α) :
    ∀ (l : List α) (i : Nat), i < l.length → (l.set i x).getD i d = x
  | [], _, h => absurd h (by simp)
  | _ :: _, 0, _ => rfl
  | a :: t, i + 1, h => by
    rw [List.set_cons_succ, List.getD_cons_succ]
    exact getD_set_same d x t i (by simpa using h)

theorem take_set_of_le {α : Type} (x : α) :
    ∀ (l : List α) (i n : Nat), n ≤ i → (l.set i x).take n = l.take n
  | [], _, _, _ => by simp
  | _ :: _, _, 0, _ => by simp
  | _ :: _, 0, _ + 1, h => absurd h (by omega)
  | a :: t, i + 1, n + 1, h => by
    rw [List.set_cons_succ, List.take_succ_cons, List.take_succ_cons,
      take_set_of_le x t i n (by omega)]

theorem getD_append_self {α : Type} (d x : α) :
    ∀ (σ : List α), (σ ++ [x]).getD σ.length d = x
  | [] => rfl
  | a :: t => by
    rw [List.cons_append, List.length_cons, List.getD_cons_succ]
    exact getD_append_self d x t

theorem storeRead_set_same (σ : Store) (i : Nat) (x : Html) (h : i < σ.length) :
    storeRead (σ.set i x) i = x :=
  getD_set_same (Html.text "") x σ i h

theorem storeRead_push (σ : Store) (x : Html) : storeRead (σ ++ [x]) σ.length = x :=
  getD_append_self (Html.text "") x σ

theorem foldl_appendAt_read (i : Nat) :
    ∀ (pieces : List Html) (σ : Store) (kids : List Html), i < σ.length →
      storeRead σ i = Html.el "div" [] kids →
      storeRead (pieces.foldl (fun s c => appendAt s i c) σ) i =
          Html.el "div" [] (kids ++ pieces) ∧
        (pieces.foldl (fun s c => appendAt s i c) σ).length = σ.length
  | [], σ, kids, _, hr => by
    rw [List.foldl_nil, List.append_nil]
    exact ⟨hr, rfl⟩
  | c :: cs, σ, kids, hi, hr => by
    rw [List.foldl_cons]
    have h1 : appendAt σ i c = σ.set i (Html.el "div" [] (kids ++ [c])) := by
      simp only [appendAt]
      rw [hr, appendChild_el]
    rw [h1]
    have h2 := foldl_appendAt_read i cs (σ.set i (Html.el "div" [] (kids ++ [c])))
      (kids ++ [c]) (by rw [List.length_set]; exact hi)
      (storeRead_set_same σ i _ hi)
    rcases h2 with ⟨h2a, h2b⟩
    rw [List.length_set] at h2b
    refine ⟨?_, h2b⟩
    rw [h2a, List.append_assoc, List.singleton_append]

theorem parseStep_applied (fuel : Nat) (root : Html) (acc : List ContentNode × Store)
    (p : Path) :
    parseStep fuel root acc p =
      (acc.1 ++ [(parse_to_dictS fuel acc.2.length
          ((fragmentPieces root p).foldl (fun s c => appendAt s acc.2.length c)
            (acc.2 ++ [Html.el "div" [] []]))).1],
       (parse_to_dictS fuel acc.2.length
          ((fragmentPieces root p).foldl (fun s c => appendAt s acc.2.length c)
            (acc.2 ++ [Html.el "div" [] []]))).2) := rfl

theorem parse_to_dictS_frame : ∀ (fuel idx : Nat) (σ : Store),
    ((parse_to_dictS fuel idx σ).2).take σ.length = σ ∧
      σ.length ≤ ((parse_to_dictS fuel idx σ).2).length
  | 0, _, σ => ⟨List.take_length σ, Nat.le_refl _⟩
  | fuel + 1, idx, σ => by
    simp only [parse_to_dictS]
    by_cases hb : is_base_case (storeRead σ idx) = true
    · rw [if_pos hb]
      cases hf : (storeRead σ idx).descTags.find? is_heading with
      | some heading => exact ⟨List.take_length σ, Nat.le_refl _⟩
      | none => exact ⟨List.take_length σ, Nat.le_refl _⟩
    · rw [if_neg hb]
      cases ha : anchorData (storeRead σ idx) with
      | none => exact ⟨List.take_length σ, Nat.le_refl _⟩
      | some trip =>
        obtain ⟨highest, rest⟩ := trip
        obtain ⟨hl, pos⟩ := rest
        have hstep : ∀ (acc : List ContentNode × Store) (p : Path),
            (acc.2.take σ.length = σ ∧ σ.length ≤ acc.2.length) →
            (((parseStep fuel (storeRead σ idx) acc p).2).take σ.length = σ ∧
              σ.length ≤ ((parseStep fuel (storeRead σ idx) acc p).2).length) := by
          intro acc p hacc
          obtain ⟨h1, h2⟩ := hacc
          rw [parseStep_applied]
          dsimp only
          have hinit : ((acc.2 ++ [Html.el "div" [] []]).take σ.length = σ ∧
              (acc.2 ++ [Html.el "div" [] []]).length = acc.2.length + 1) := by
            constructor
            · rw [List.take_append_of_le_length h2]
              exact h1
            · simp
          have hσ2 := foldlPreserve
            (fun s : Store => s.take σ.length = σ ∧ s.length = acc.2.length + 1)
            (fun s c => appendAt s acc.2.length c)
            (fun s c hs => ⟨by
                simp only [appendAt]
                rw [take_set_of_le ((storeRead s acc.2.length).appendChild c)
                  s acc.2.length σ.length h2]
                exact hs.1,
              by
                simp only [appendAt, List.length_set]
                exact hs.2⟩)
            (fragmentPieces (storeRead σ idx) p) (acc.2 ++ [Html.el "div" [] []]) hinit
          obtain ⟨hs2take, hs2len⟩ := hσ2
          obtain ⟨hrt, hrl⟩ := parse_to_dictS_frame fuel acc.2.length
            ((fragmentPieces (storeRead σ idx) p).foldl
              (fun s c => appendAt s acc.2.length c) (acc.2 ++ [Html.el "div" [] []]))
          constructor
          · have hle : σ.length ≤ ((fragmentPieces (storeRead σ idx) p).foldl
                (fun s c => appendAt s acc.2.length c)
                (acc.2 ++ [Html.el "div" [] []])).length := by
              rw [hs2len]
              omega
            have e1 : ((parse_to_dictS fuel acc.2.length
                ((fragmentPieces (storeRead σ idx) p).foldl
                  (fun s c => appendAt s acc.2.length c)
                  (acc.2 ++ [Html.el "div" [] []]))).2).take σ.length =
                (((parse_to_dictS fuel acc.2.length
                  ((fragmentPieces (storeRead σ idx) p).foldl
                    (fun s c => appendAt s acc.2.length c)
                    (acc.2 ++ [Html.el "div" [] []]))).2).take
                  (((fragmentPieces (storeRead σ idx) p).foldl
                    (fun s c => appendAt s acc.2.length c)
                    (acc.2 ++ [Html.el "div" [] []])).length)).take σ.length := by
              rw [List.take_take, Nat.min_eq_left hle]
            rw [e1, hrt, hs2take]
          · rw [hs2len] at hrl
            omega
        have hfold := foldlPreserve
          (fun acc : List ContentNode × Store =>
            acc.2.take σ.length = σ ∧ σ.length ≤ acc.2.length)
          (parseStep fuel (storeRead σ idx)) hstep
          (next_level_headings (storeRead σ idx)) ([], σ)
          ⟨List.take_length σ, Nat.le_refl _⟩
        exact hfold

theorem branchFold_fst (fuel : Nat) (root : Html)
    (hIH : ∀ (idx : Nat) (σ' : Store),
      (parse_to_dictS fuel idx σ').1 = parse_to_dict fuel (storeRead σ' idx)) :
    ∀ (l : List Path) (A : List ContentNode) (σ0 : Store),
      (l.foldl (parseStep fuel root) (A, σ0)).1 =
        A ++ l.map (fun p => parse_to_dict fuel (subsectionFragment root p))
  | [], A, σ0 => by simp
  | p :: ps, A, σ0 => by
    rw [List.foldl_cons, List.map_cons]
    obtain ⟨hfr, _⟩ := foldl_appendAt_read σ0.length (fragmentPieces root p)
      (σ0 ++ [Html.el "div" [] []]) []
      (by simp)
      (storeRead_push σ0 (Html.el "div" [] []))
    rw [List.nil_append] at hfr
    have hstep : parseStep fuel root (A, σ0) p =
        (A ++ [parse_to_dict fuel (subsectionFragment root p)],
         (parse_to_dictS fuel σ0.length
           ((fragmentPieces root p).foldl (fun s c => appendAt s σ0.length c)
             (σ0 ++ [Html.el "div" [] []]))).2) := by
      rw [parseStep_applied]
      dsimp only
      rw [hIH σ0.length
        ((fragmentPieces root p).foldl (fun s c => appendAt s σ0.length c)
          (σ0 ++ [Html.el "div" [] []])), hfr, subsectionFragment]
    rw [hstep, branchFold_fst fuel root hIH ps
      (A ++ [parse_to_dict fuel (subsectionFragment root p)]) _,
      List.append_assoc, List.singleton_append]

theorem parse_to_dictS_fst : ∀ (fuel idx : Nat) (σ : Store),
    (parse_to_dictS fuel idx σ).1 = parse_to_dict fuel (storeRead σ idx)
  | 0, _, _ => rfl
  | fuel + 1, idx, σ => by
    simp only [parse_to_dictS, parse_to_dict]
    by_cases hb : is_base_case (storeRead σ idx) = true
    · rw [if_pos hb, if_pos hb]
      cases hf : (storeRead σ idx).descTags.find? is_heading with
      | some heading => rfl
      | none => rfl
    · rw [if_neg hb, if_neg hb]
      cases ha : anchorData (storeRead σ idx) with
      | none => rfl
      | some trip =>
        obtain ⟨highest, rest⟩ := trip
        obtain ⟨hl, pos⟩ := rest
        have hb1 := branchFold_fst fuel (storeRead σ idx)
          (fun i s => parse_to_dictS_fst fuel i s)
          (next_level_headings (storeRead σ idx)) [] σ
        rw [List.nil_append] at hb1
        exact congrArg (CNode (pyStrip highest.getText)
          (pyStrip (String.intercalate "\n"
            (compositeTextParts (storeRead σ idx) highest hl)))
          (some hl)) hb1

/-- C9: both passes leave their inputs unchanged.  The chunker, run in
the store-passing embedding that makes `temp_div.append` mutation
explicit, only allocates fresh fragment roots behind the existing store
entries: every pre-existing tree — in particular the input document — is
identical before and after chunking, and the result is the same node the
pure reading of the tree produces.  The flattener's embedding returns
its store untouched, node for node. -/
theorem c9_passes_leave_inputs_unchanged :
    ∀ (fuel idx : Nat) (σ : Store),
      ((parse_to_dictS fuel idx σ).2).take σ.length = σ ∧
      (parse_to_dictS fuel idx σ).1 = parse_to_dict fuel (storeRead σ idx) ∧
      ∀ (τ : List ContentNode) (i : Nat) (p : Option String),
        (process_nodeS τ i p).2 = τ := by
  intro fuel idx σ
  exact ⟨(parse_to_dictS_frame fuel idx σ).1, parse_to_dictS_fst fuel idx σ,
    fun τ i p => rfl⟩

end HtmlChunking
